import Mathlib

/-!
# data_harvest — verification of the short-position synchronization engine

Shallow embedding of the core of the `felipet/data_harvest` repository:

* `src/domain/short_position.rs` — the `ShortPosition` record and the
  `ShortResponse::parse` response classifier;
* `src/web_scrappers/cnmv_scrapper.rs` — the HTML-table extraction loop of
  `CnmvProvider::short_positions` (modelled on the post-parse cell structure);
* `src/feeders/ibex_short_provider.rs` — the reconciliation pass of
  `IbexShortFeeder::add_today_data` together with its storage primitives
  `insert_short_position` and `wipe_short_position`, over an explicit model of
  the two tables `alive_positions` and `ibex35_short_historic`.

Rust `f32` weights and UTC timestamps are modelled as integers with decidable
equality (the engine only ever compares them for equality), `Uuid` identity
tokens as naturals allocated from a counter (`uuid::Uuid::new_v4` always
returns a token distinct from every stored one; the all-zero sentinel is `0`),
and a Rust panic (`unwrap` on `None`/`Err`) as the distinguished outcome
`Res.panic`.
-/

/-! ## Domain model (`src/domain`) -/

/-- `ShortPosition` (src/domain/short_position.rs): one disclosed short
interest. `weight` models the `f32` percentage, `open_date` the UTC
timestamp. -/
structure Pos where
  owner : String
  weight : Int
  open_date : Int
  ticker : String
deriving DecidableEq, Repr

/-- `CnmvError` (src/domain/errors.rs). -/
inductive CnmvError where
  | UnknownCompany : CnmvError
  | ExternalError : String → CnmvError
  | InternalError : String → CnmvError
  | MissingIsin : CnmvError
deriving DecidableEq, Repr

/-- `DbError` (src/domain/errors.rs). -/
inductive DbError where
  | MissingStockInfo : String → DbError
  | Unknown : String → DbError
deriving DecidableEq, Repr

/-! ### String helpers

The Rust code uses `str::contains`, `str::trim`, `str::replace` and a compiled
regex.  They are modelled over `List Char` so that every definition reduces in
the kernel. -/

/-- Does `p` occur as a leading segment of `l`? (model of `str::starts_with`,
used to build the substring search). -/
def startsWithL : List Char → List Char → Bool
  | [], _ => true
  | _ :: _, [] => false
  | p :: ps, c :: cs => p = c && startsWithL ps cs

/-- Does `p` occur as a contiguous segment of `l`? (model of
`str::contains` / `str::find(..).is_some()`). -/
def containsL (p : List Char) : List Char → Bool
  | [] => startsWithL p []
  | c :: cs => startsWithL p (c :: cs) || containsL p cs

/-- `s.contains(pat)` on strings. -/
def containsStr (s pat : String) : Bool :=
  containsL pat.toList s.toList

/-- Does the list start with `'E'`, `'S'` and then at least ten digits?
(one anchored attempt of the regex `ES(\d){10}`). -/
def isinHere : List Char → Bool
  | 'E' :: 'S' :: rest => decide (rest.length ≥ 10) && (rest.take 10).all Char.isDigit
  | _ => false

/-- Unanchored search for the regex `ES(\d){10}` (model of
`Regex::new(r"ES(\d){10}").is_match`). -/
def isinScan : List Char → Bool
  | [] => false
  | c :: cs => isinHere (c :: cs) || isinScan cs

/-- `REG_ISIN.is_match(&s)` from `ShortResponse::parse`. -/
def hasIsinES (s : String) : Bool :=
  isinScan s.toList

/-- Marker text for rule 1 of the classifier. -/
def extMarker : String := "No ha sido posible completar su consulta"

/-- Marker text for rule 2 of the classifier. -/
def noDataMarker : String := "No se han encontrado datos disponibles"

/-- Marker text for rule 2a of the classifier. -/
def histMarker : String := "Serie histórica"

/-- `ShortResponse::parse` (src/domain/short_position.rs, lines 98–121):
classify a raw response body.  `Except.ok s` models `Ok(ShortResponse(s))`. -/
def shortResponseParse (s : String) : Except CnmvError String :=
  if containsStr s extMarker then
    .error (.ExternalError "The request could be processed by the external server")
  else if containsStr s noDataMarker then
    if containsStr s histMarker then .ok s
    else if hasIsinES s then .ok s
    else .error .UnknownCompany
  else .ok s

/-- Modelled from the spec: the spec's (claim C5's) identifier shape, "a
12-character national security identifier shape (2 letters + 10 digits)",
anchored attempt.  The source regex instead fixes the two letters to `ES`;
this definition exists only to be compared against the source behaviour. -/
def specTwoLetterIdHere : List Char → Bool
  | a :: b :: rest =>
      a.isAlpha && b.isAlpha && decide (rest.length ≥ 10) && (rest.take 10).all Char.isDigit
  | _ => false

/-- Modelled from the spec: unanchored search over a character list for the
spec's two-letters-plus-ten-digits identifier shape. -/
def specTwoLetterScan : List Char → Bool
  | [] => false
  | c :: cs => specTwoLetterIdHere (c :: cs) || specTwoLetterScan cs

/-- Modelled from the spec: unanchored search for the spec's
two-letters-plus-ten-digits identifier shape. -/
def specTwoLetterId (s : String) : Bool :=
  specTwoLetterScan s.toList

/-! ## Storage model (`src/feeders/ibex_short_provider.rs`)

The store is the pair of tables used by the feeder:
`alive_positions` (a single `id` column) and `ibex35_short_historic`
(`id, owner, weight, open_date, ticker`). -/

/-- One row of `ibex35_short_historic`. -/
structure Row where
  id : Nat
  owner : String
  weight : Int
  open_date : Int
  ticker : String
deriving DecidableEq, Repr

/-- The two tables of the store. -/
structure Db where
  alive : List Nat
  historic : List Row
deriving DecidableEq, Repr

/-- Store plus the identity-token allocator: `next` is the next fresh token
(every token already in the store is smaller, the sentinel is `0`). -/
structure St where
  db : Db
  next : Nat
deriving DecidableEq, Repr

/-- `ShortPositionBd` (lines 51–57): the hydration type, every column
nullable. -/
structure Bd where
  id : Option Nat
  owner : Option String
  ticker : Option String
  weight : Option Int
  open_date : Option Int
deriving DecidableEq, Repr

/-- `TryFrom<&ShortPositionBd> for ShortPosition` (lines 138–173): hydrating a
stored row into the domain type, failing on any missing field. -/
def tryFromBd (b : Bd) : Except DbError Pos :=
  match b.owner with
  | none => .error (.MissingStockInfo "Missing owner")
  | some o =>
    match b.weight with
    | none => .error (.MissingStockInfo "Missing weight")
    | some w =>
      match b.open_date with
      | none => .error (.MissingStockInfo "Missing open date")
      | some d =>
        match b.ticker with
        | none => .error (.MissingStockInfo "Missing ticker")
        | some t => .ok ⟨o, w, d, t⟩

/-- Project a historic row to its domain record. -/
def Row.toPos (r : Row) : Pos :=
  ⟨r.owner, r.weight, r.open_date, r.ticker⟩

/-- A historic row as the (fully populated) hydration record the SQL join
produces for it. -/
def Row.toBd (r : Row) : Bd :=
  ⟨some r.id, some r.owner, some r.ticker, some r.weight, some r.open_date⟩

/-- The inner join `alive_positions ⋈ ibex35_short_historic` restricted to one
ticker — the row set read by both `active_positions` and `active_position`
(lines 342–386). -/
def joinRows (db : Db) (t : String) : List Row :=
  db.historic.filter (fun h => decide (h.ticker = t ∧ h.id ∈ db.alive))

/-- `active_positions` (lines 365–386): all stored active positions of a
ticker, as hydration records. -/
def storedOf (db : Db) (t : String) : List Bd :=
  (joinRows db t).map Row.toBd

/-- `active_position` (lines 342–363): the join filtered by ticker and owner,
`fetch_optional` returning the first row if any. -/
def activePosition (db : Db) (t o : String) : Option Row :=
  ((joinRows db t).filter (fun r => decide (r.owner = o))).head?

/-- The row written by `insert_short_position` for position `p` under token
`uuid`. -/
def mkRow (uuid : Nat) (p : Pos) : Row :=
  ⟨uuid, p.owner, p.weight, p.open_date, p.ticker⟩

/-- `insert_short_position` (lines 389–442): allocate a fresh token; if
`active` carries a previous token, re-key the active-set row
(`UPDATE alive_positions SET id = new WHERE id = old`), otherwise insert a new
active-set row; then append the historical row under the fresh token. -/
def insertPos (st : St) (p : Pos) (active : Option Nat) : St :=
  let uuid := st.next
  let alive' :=
    match active with
    | some old => st.db.alive.map (fun a => if a = old then uuid else a)
    | none => st.db.alive ++ [uuid]
  ⟨⟨alive', st.db.historic ++ [mkRow uuid p]⟩, uuid + 1⟩

/-- `wipe_short_position` (lines 444–459): overwrite the active-set row's
token with the all-zero sentinel
(`UPDATE alive_positions SET id = '0000…' WHERE id = $1`); the historical
table is untouched. -/
def wipeShortPosition (db : Db) (w : Nat) : Db :=
  ⟨db.alive.map (fun a => if a = w then 0 else a), db.historic⟩

/-! ## The reconciliation pass (`add_today_data`, lines 183–325) -/

/-- Errors that `add_today_data` propagates (its `Box<dyn Error>`). -/
inductive RunError where
  | cnmv : CnmvError → RunError
  | db : DbError → RunError
deriving DecidableEq, Repr

/-- Outcome of a fallible computation in the feeder; `panic` models a Rust
panic (`unwrap` of `None` / of an `Err`). -/
inductive Res (α : Type) where
  | ok : α → Res α
  | err : RunError → Res α
  | panic : Res α
deriving DecidableEq, Repr

/-- Sequencing of feeder computations (`?` propagates errors, a panic aborts
everything). -/
def Res.bind {α β : Type} : Res α → (α → Res β) → Res β
  | .ok a, f => f a
  | .err e, _ => .err e
  | .panic, _ => .panic

/-- The storage mutations the pass can emit. -/
inductive Op where
  | insertNew : Nat → Pos → Op
  | rekey : Nat → Nat → Pos → Op
  | retire : Nat → Op
deriving DecidableEq, Repr

/-- Is the mutation a retirement? -/
def Op.isRetire : Op → Bool
  | .retire _ => true
  | _ => false

/-- The inner scan of the first diff loop (lines 254–266): hydrate each stored
row in turn and test structural equality with the fresh position, stopping at
the first match. -/
def scanFull (p : Pos) : List Bd → Res Bool
  | [] => .ok false
  | b :: rest =>
    match tryFromBd b with
    | .error e => .err (.db e)
    | .ok q => if p = q then .ok true else scanFull p rest

/-- First loop of the both-non-empty case (lines 250–294): for each fresh
position without a structural match, look up a stored row by (ticker, owner)
and insert, re-keying when a previous row exists.  The Boolean accumulator is
`insert_ticker`. -/
def loop1 (stored : List Bd) : List Pos → St → Bool → List Op → Res (St × Bool × List Op)
  | [], st, flag, tr => .ok (st, flag, tr)
  | p :: rest, st, flag, tr =>
    match scanFull p stored with
    | .err e => .err e
    | .panic => .panic
    | .ok true => loop1 stored rest st false tr
    | .ok false =>
      match activePosition st.db p.ticker p.owner with
      | some r => loop1 stored rest (insertPos st p (some r.id)) flag (tr ++ [.rekey r.id st.next p])
      | none => loop1 stored rest (insertPos st p none) flag (tr ++ [.insertNew st.next p])

/-- The inner scan of the second diff loop (lines 300–307): hydrate the stored
row (inside the loop over fresh positions, as the source does) and test
owner/ticker equality. -/
def scanKey (b : Bd) : List Pos → Res Bool
  | [] => .ok false
  | p :: rest =>
    match tryFromBd b with
    | .error e => .err (.db e)
    | .ok q => if p.owner = q.owner ∧ p.ticker = q.ticker then .ok true else scanKey b rest

/-- Second loop of the both-non-empty case (lines 297–316): every stored row
with no (owner, ticker) match among the fresh positions is wiped; its owner,
ticker and identity token are unwrapped unconditionally (a missing one
panics). -/
def loop2 (news : List Pos) : List Bd → St → Bool → List Op → Res (St × Bool × List Op)
  | [], st, flag, tr => .ok (st, flag, tr)
  | b :: rest, st, flag, tr =>
    match scanKey b news with
    | .err e => .err e
    | .panic => .panic
    | .ok true => loop2 news rest st flag tr
    | .ok false =>
      match b.owner with
      | none => .panic
      | some _ =>
        match b.ticker with
        | none => .panic
        | some _ =>
          match b.id with
          | none => .panic
          | some i => loop2 news rest ⟨wipeShortPosition st.db i, st.next⟩ true (tr ++ [.retire i])

/-- Case "stored empty, current non-empty" (lines 212–226): insert every fresh
position with no previous identity. -/
def insertAll : List Pos → St → List Op → St × List Op
  | [], st, tr => (st, tr)
  | p :: rest, st, tr => insertAll rest (insertPos st p none) (tr ++ [.insertNew st.next p])

/-- Case "stored non-empty, current empty" (lines 229–246): wipe every stored
row; a missing identity token is reported (logged) but not fatal. -/
def wipeAll : List Bd → St → List Op → St × List Op
  | [], st, tr => (st, tr)
  | b :: rest, st, tr =>
    match b.id with
    | some i => wipeAll rest ⟨wipeShortPosition st.db i, st.next⟩ (tr ++ [.retire i])
    | none => wipeAll rest st tr

/-- The per-company reconciliation body of `add_today_data` (lines 204–321):
given the freshly scraped positions and the stored snapshot, apply the four
mutually exclusive diff cases.  Returns the final store, whether the company's
ticker is pushed onto `updated_tickers`, and the emitted mutations. -/
def diffPass (news : List Pos) (stored : List Bd) (st : St) : Res (St × Bool × List Op) :=
  if stored = [] ∧ news = [] then .ok (st, false, [])
  else if stored = [] then
    let r := insertAll news st []
    .ok (r.1, true, r.2)
  else if news = [] then
    let r := wipeAll stored st []
    .ok (r.1, true, r.2)
  else
    (loop1 stored news st true []).bind fun x => loop2 news stored x.1 x.2.1 x.2.2

deriving instance DecidableEq for Except

/-- One company as `add_today_data` sees it: its ticker, its optional external
identifier (`extra_id`), and the outcome of scraping its page
(`CnmvProvider::short_positions`, an external call from the feeder's view). -/
structure CompanyFetch where
  ticker : String
  extra_id : Option String
  scrape : Except CnmvError (List Pos)
deriving DecidableEq, Repr

/-- `add_today_data` (lines 183–325): iterate the companies that carry an
external identifier; scrape (a scrape error is propagated with `?` and aborts
the whole batch), read the stored snapshot, reconcile, and collect the tickers
whose flag was set. -/
def addTodayData : List CompanyFetch → St → Res (St × List String)
  | [], st => .ok (st, [])
  | c :: cs, st =>
    if c.extra_id.isSome then
      match c.scrape with
      | .error e => .err (.cnmv e)
      | .ok news =>
        (diffPass news (storedOf st.db c.ticker) st).bind fun x =>
          (addTodayData cs x.1).bind fun y =>
            .ok (y.1, if x.2.1 then c.ticker :: y.2 else y.2)
    else addTodayData cs st

/-- Well-formedness of the store: the allocator is ahead of every token in
either table, no historic token is the sentinel, historic tokens are distinct,
and the non-sentinel active-set tokens are distinct. -/
def St.wf (st : St) : Prop :=
  0 < st.next ∧
  (∀ h ∈ st.db.historic, h.id < st.next ∧ h.id ≠ 0) ∧
  (st.db.historic.map Row.id).Nodup ∧
  (∀ a ∈ st.db.alive, a < st.next) ∧
  (st.db.alive.filter (fun a => decide (a ≠ 0))).Nodup

/-! ## The extractor (`CnmvProvider::short_positions`, src/web_scrappers/cnmv_scrapper.rs, lines 151–225)

The HTML document is modelled after `scraper` has done its work: a page is the
list of `<tr>` elements, each a list of `<td>` cells carrying an optional
`class` attribute, an optional `data-th` attribute, and the sequence of text
nodes (`td.text()`). -/

/-- One `<td>` cell as the extraction loop reads it. -/
structure Td where
  cls : Option String
  dataTh : Option String
  txt : List String
deriving DecidableEq, Repr

/-- `str::trim` on a character list. -/
def listTrim (l : List Char) : List Char :=
  ((l.dropWhile Char.isWhitespace).reverse.dropWhile Char.isWhitespace).reverse

/-- `str::trim`. -/
def strTrim (s : String) : String :=
  ⟨listTrim s.toList⟩

/-- `str::replace(',', ".")`: every comma becomes a period. -/
def replaceCommas (s : String) : String :=
  ⟨s.toList.map (fun c => if c = ',' then '.' else c)⟩

/-- Value of a digit string (most significant first). -/
def digitsToNat (l : List Char) : Nat :=
  l.foldl (fun acc c => acc * 10 + (c.toNat - 48)) 0

/-- Leading sign of a numeral (model of the sign handling of `f32::from_str`). -/
def splitSign : List Char → Int × List Char
  | '+' :: r => (1, r)
  | '-' :: r => (-1, r)
  | l => (1, l)

/-- Model of `str::parse::<f32>()` on the plain-decimal fragment the CNMV page
uses: optional sign, digits, at most one decimal point, at least one digit;
the value is returned in fixed-point with six fractional digits (the engine
never computes with it, only compares). -/
def parseF32 (s : String) : Option Int :=
  let sc := splitSign s.toList
  let ip := (sc.2.span (fun c => c ≠ '.')).1
  let rest := (sc.2.span (fun c => c ≠ '.')).2
  match rest with
  | [] =>
    if ip ≠ [] ∧ ip.all Char.isDigit then some (sc.1 * digitsToNat ip) else none
  | _ :: fp =>
    if fp.any (fun c => c = '.') then none
    else if ip = [] ∧ fp = [] then none
    else if ip.all Char.isDigit ∧ fp.all Char.isDigit then
      some (sc.1 * (digitsToNat ip * 1000000 + digitsToNat (fp.take 6) * 10 ^ (6 - (min fp.length 6))))
    else none

/-- Split a character list at every `'/'`. -/
def splitSlash : List Char → List (List Char)
  | [] => [[]]
  | '/' :: r => [] :: splitSlash r
  | c :: r =>
    match splitSlash r with
    | [] => [[c]]
    | g :: gs => (c :: g) :: gs

/-- Length of month `m` of year `y` in the proleptic Gregorian calendar. -/
def daysInMonth (m y : Nat) : Nat :=
  if m = 2 then (if y % 4 = 0 ∧ (y % 100 ≠ 0 ∨ y % 400 = 0) then 29 else 28)
  else if m = 4 ∨ m = 6 ∨ m = 9 ∨ m = 11 then 30
  else 31

/-- Model of `NaiveDate::parse_from_str(&date, "%d/%m/%Y")`: three
slash-separated digit groups forming a valid calendar day/month/year. -/
def parseDate (s : String) : Option (Nat × Nat × Nat) :=
  match splitSlash s.toList with
  | [ds, ms, ys] =>
    if ds ≠ [] ∧ ms ≠ [] ∧ ys ≠ [] ∧ ds.all Char.isDigit ∧ ms.all Char.isDigit ∧ ys.all Char.isDigit then
      let d := digitsToNat ds
      let m := digitsToNat ms
      let y := digitsToNat ys
      if 1 ≤ m ∧ m ≤ 12 ∧ 1 ≤ d ∧ d ≤ daysInMonth m y then some (d, m, y) else none
    else none
  | _ => none

/-- The cell scan of one table row (lines 164–185).  The accumulator starts at
`("dummy", 0.0, "nodate")`; a `class="Izquierda"` cell sets the owner from its
first text node (trimmed), a `data-th="% sobre el capital"` cell parses the
weight after replacing the decimal comma (`unwrap` on a missing text node or a
failed parse panics), a `data-th="Fecha de la posición"` cell records the date
text. -/
def scanCells : List Td → String × Int × String → Res (String × Int × String)
  | [], acc => .ok acc
  | td :: rest, acc =>
    match td.cls with
    | some x =>
      if x = "Izquierda" then
        match td.txt.head? with
        | none => .panic
        | some s => scanCells rest (strTrim s, acc.2.1, acc.2.2)
      else scanCells rest acc
    | none =>
      match td.dataTh with
      | some x =>
        if x = "% sobre el capital" then
          match td.txt.head? with
          | none => .panic
          | some s =>
            match parseF32 (replaceCommas s) with
            | none => .panic
            | some w => scanCells rest (acc.1, w, acc.2.2)
        else if x = "Fecha de la posición" then
          match td.txt.head? with
          | none => .panic
          | some s => scanCells rest (acc.1, acc.2.1, s)
        else scanCells rest acc
      | none => scanCells rest acc

/-- Processing of one table row (lines 163–212): scan the cells; a row whose
owner is still the `"dummy"` sentinel yields nothing, otherwise the date text
is parsed (`InvalidDateError` is `CnmvError::InternalError` here) and the
local 15:30 Madrid time is converted to UTC through `conv` (the
`chrono-tz` collaborator: `some` models `LocalResult::Single`). -/
def processRow (conv : Nat → Nat → Nat → Option Int) (tick : String) (tds : List Td) :
    Res (Option Pos) :=
  match scanCells tds ("dummy", 0, "nodate") with
  | .panic => .panic
  | .err e => .err e
  | .ok acc =>
    if acc.1 = "dummy" then .ok none
    else
      match parseDate acc.2.2 with
      | none => .err (.cnmv (.InternalError "Failed to parse the short position open date."))
      | some dmy =>
        match conv dmy.1 dmy.2.1 dmy.2.2 with
        | none => .err (.cnmv (.InternalError "Failed to build a valid date."))
        | some utc => .ok (some ⟨acc.1, acc.2.1, utc, tick⟩)

/-- The whole extraction loop of `short_positions`: every row of the page in
order, collecting the positions of rows that yield one. -/
def extractPositions (conv : Nat → Nat → Nat → Option Int) (tick : String) :
    List (List Td) → Res (List Pos)
  | [] => .ok []
  | tr :: rest =>
    (processRow conv tick tr).bind fun op =>
      (extractPositions conv tick rest).bind fun ps =>
        .ok (match op with | some p => p :: ps | none => ps)

/-! ## Specification-side helper definitions -/

/-- Rows of the snapshot `R` kept by the first diff loop: a row survives the
loop unless some fresh position with its owner forced a re-key. -/
def keptB (R : List Row) (P : List Pos) (r : Row) : Bool :=
  P.all (fun p => !(decide (p.owner = r.owner)) || R.any (fun r' => decide (Row.toPos r' = p)))

/-- Fresh positions that the first diff loop writes (no structural match in
the snapshot). -/
def freshB (R : List Row) (p : Pos) : Bool :=
  !(R.any (fun r => decide (Row.toPos r = p)))

/-- Snapshot rows the second diff loop retires: no (owner, ticker) match among
the fresh positions. -/
def wipedRows (R : List Row) (P : List Pos) : List Row :=
  R.filter (fun r => !(P.any (fun p => decide (p.owner = r.owner ∧ p.ticker = r.ticker))))

/-! ## Basic lemmas -/

@[simp]
theorem Res.bind_ok {α β : Type} (a : α) (f : α → Res β) : Res.bind (.ok a) f = f a := rfl

@[simp]
theorem Res.bind_err {α β : Type} (e : RunError) (f : α → Res β) :
    Res.bind (.err e) f = .err e := rfl

@[simp]
theorem Res.bind_panic {α β : Type} (f : α → Res β) :
    Res.bind (.panic : Res α) f = .panic := rfl

@[simp]
theorem tryFromBd_toBd (r : Row) : tryFromBd r.toBd = .ok r.toPos := rfl

/-! ## Claim C8 — retire-not-delete -/

theorem count_wipe_map (l : List Nat) (w j : Nat) :
    (l.map (fun a => if a = w then 0 else a)).count j =
      if j = w ∧ w ≠ 0 then 0
      else if j = 0 ∧ w ≠ 0 then l.count 0 + l.count w
      else l.count j := by
  induction l with
  | nil => simp
  | cons a tl ih =>
    by_cases hw : w = 0
    · subst hw
      simp only [List.map_cons, List.count_cons, ih]
      by_cases ha : a = 0 <;> simp [ha]
    · by_cases ha : a = w
      · subst ha
        by_cases hj : j = a
        · subst hj; simp_all [List.count_cons]
        · by_cases hj0 : j = 0 <;> simp_all [List.count_cons] <;> omega
      · by_cases hj : j = w
        · subst hj; simp_all [List.count_cons]
        · by_cases hj0 : j = 0
          · subst hj0
            by_cases ha0 : a = 0 <;> simp_all [List.count_cons] <;> omega
          · by_cases hja : j = a <;> simp_all [List.count_cons]

/-- Claim C8: retiring a position only re-keys the targeted active-set rows to
the sentinel `0`: the historical table is untouched, no active-set row is
deleted (the length is preserved), the wiped token disappears, the sentinel
count absorbs it, and every other token's multiplicity is unchanged. -/
theorem c8_retire_not_delete (db : Db) (w : Nat) (hw : w ≠ 0) :
    (wipeShortPosition db w).historic = db.historic ∧
    (wipeShortPosition db w).alive.length = db.alive.length ∧
    (wipeShortPosition db w).alive.count w = 0 ∧
    (wipeShortPosition db w).alive.count 0 = db.alive.count 0 + db.alive.count w ∧
    ∀ j, j ≠ w → j ≠ 0 → (wipeShortPosition db w).alive.count j = db.alive.count j := by
  have hw' : (0 : Nat) ≠ w := Ne.symm hw
  refine ⟨rfl, by simp [wipeShortPosition], ?_, ?_, ?_⟩
  · rw [wipeShortPosition, count_wipe_map]; simp [hw]
  · rw [wipeShortPosition, count_wipe_map]; simp [hw, hw']
  · intro j hjw hj0
    rw [wipeShortPosition, count_wipe_map]
    simp [hjw, hj0]

/-- Witness for C8 at a concrete store. -/
theorem c8_retire_not_delete_witness :
    (3 : Nat) ≠ 0 ∧
    ((wipeShortPosition ⟨[3, 5], [⟨3, "A", 1, 0, "T"⟩]⟩ 3).historic = [⟨3, "A", 1, 0, "T"⟩] ∧
      (wipeShortPosition ⟨[3, 5], [⟨3, "A", 1, 0, "T"⟩]⟩ 3).alive.length = 2 ∧
      (wipeShortPosition ⟨[3, 5], [⟨3, "A", 1, 0, "T"⟩]⟩ 3).alive.count 3 = 0 ∧
      (wipeShortPosition ⟨[3, 5], [⟨3, "A", 1, 0, "T"⟩]⟩ 3).alive.count 0 = 0 + 1 ∧
      ∀ j, j ≠ 3 → j ≠ 0 →
        (wipeShortPosition ⟨[3, 5], [⟨3, "A", 1, 0, "T"⟩]⟩ 3).alive.count j =
          ([3, 5] : List Nat).count j) :=
  ⟨by decide, by
    have h := c8_retire_not_delete ⟨[3, 5], [⟨3, "A", 1, 0, "T"⟩]⟩ 3 (by decide)
    simpa using h⟩

/-! ## Claim C5 — response classification -/

/-- Claim C5 (counterexample): a body containing the "no data available"
marker and an identifier of the spec's two-letters-plus-ten-digits shape, but
with letters other than `ES`, is rejected with `UnknownCompanyError` — the
source regex only accepts the literal prefix `ES`. -/
theorem c5_counterexample :
    specTwoLetterId "No se han encontrado datos disponibles AB1234567890" = true ∧
    containsStr "No se han encontrado datos disponibles AB1234567890" noDataMarker = true ∧
    containsStr "No se han encontrado datos disponibles AB1234567890" extMarker = false ∧
    containsStr "No se han encontrado datos disponibles AB1234567890" histMarker = false ∧
    hasIsinES "No se han encontrado datos disponibles AB1234567890" = false ∧
    shortResponseParse "No se han encontrado datos disponibles AB1234567890" =
      .error .UnknownCompany := by
  decide

/-- Claim C5 (amended): the ordered classification rules, with the
identifier-shape rule restricted — as the source regex `ES(\d){10}` is — to
the literal letters `ES` followed by ten digits: the external-failure marker
always yields `ExternalServiceError`; otherwise a body with the "no data"
marker is accepted exactly when it also has the "historical series" marker or
an `ES`-identifier, and yields `UnknownCompanyError` otherwise; a body with
neither marker is accepted. -/
theorem c5_classification (s : String) :
    ((∃ m, shortResponseParse s = .error (.ExternalError m)) ↔ containsStr s extMarker = true) ∧
    (shortResponseParse s = .error .UnknownCompany ↔
      (containsStr s extMarker = false ∧ containsStr s noDataMarker = true ∧
        containsStr s histMarker = false ∧ hasIsinES s = false)) ∧
    (shortResponseParse s = .ok s ↔
      (containsStr s extMarker = false ∧
        (containsStr s noDataMarker = true →
          (containsStr s histMarker = true ∨ hasIsinES s = true)))) := by
  unfold shortResponseParse
  cases h1 : containsStr s extMarker <;>
    cases h2 : containsStr s noDataMarker <;>
      cases h3 : containsStr s histMarker <;>
        cases h4 : hasIsinES s <;>
          simp [h1, h2, h3, h4]

/-! ## Claim C4 — malformed weight cell -/

/-- Claim C4 (code divergence): on an accepted page whose single data row has
an owner cell and a `% sobre el capital` cell reading `"1,2,3"` — not a
number after the comma is replaced — the extraction loop panics (the source
calls `.parse::<f32>().unwrap()`), it does not return an error result. -/
theorem c4_malformed_weight_panics :
    parseF32 (replaceCommas "1,2,3") = none ∧
    extractPositions (fun _ _ _ => some 0) "GRF"
      [[⟨some "Izquierda", none, ["FundA"]⟩, ⟨none, some "% sobre el capital", ["1,2,3"]⟩]] =
      .panic := by
  decide

/-! ## Claim C9 — missing identity token in the both-non-empty case -/

/-- Claim C9: in the both-non-empty diff case the retire path unwraps the
dropped stored row's identity token, so a stored row with a missing `id`
(owner, ticker, weight, date present) makes the pass panic; the same corrupt
row in the current-empty case is merely reported and skipped, the pass
finishing normally with no write. -/
theorem c9_missing_id_panics :
    diffPass [⟨"FundB", 5, 0, "GRF"⟩] [⟨none, some "FundA", some "GRF", some 10, some 0⟩]
      ⟨⟨[], []⟩, 1⟩ = .panic ∧
    diffPass [] [⟨none, some "FundA", some "GRF", some 10, some 0⟩] ⟨⟨[], []⟩, 1⟩ =
      .ok (⟨⟨[], []⟩, 1⟩, true, []) := by
  decide

/-! ## Claim C10 — the `"dummy"` owner sentinel -/


theorem scanCells_owner_const (tds : List Td) (o : String)
    (h : ∀ td ∈ tds, td.cls ≠ some "Izquierda") :
    ∀ (w : Int) (d : String) (acc' : String × Int × String),
      scanCells tds (o, w, d) = .ok acc' → acc'.1 = o := by
  induction tds with
  | nil =>
    intro w d acc' hres
    simp only [scanCells] at hres
    cases hres
    rfl
  | cons td rest ih =>
    intro w d acc' hres
    have hrest : ∀ td' ∈ rest, td'.cls ≠ some "Izquierda" := fun td' ht =>
      h td' (List.mem_cons_of_mem _ ht)
    have hhd := h td (List.mem_cons_self _ _)
    rcases hc : td.cls with _ | x
    · rcases hd : td.dataTh with _ | x
      · simp only [scanCells, hc, hd] at hres
        exact ih hrest w d acc' hres
      · by_cases hx1 : x = "% sobre el capital"
        · subst hx1
          simp only [scanCells, hc, hd, if_pos] at hres
          rcases hh : td.txt.head? with _ | s
          · simp only [hh] at hres
            cases hres
          · simp only [hh] at hres
            rcases hp : parseF32 (replaceCommas s) with _ | v
            · simp only [hp] at hres
              cases hres
            · simp only [hp] at hres
              exact ih hrest v d acc' hres
        · by_cases hx2 : x = "Fecha de la posición"
          · subst hx2
            simp only [scanCells, hc, hd, if_neg hx1, if_pos] at hres
            rcases hh : td.txt.head? with _ | s
            · simp only [hh] at hres
              cases hres
            · simp only [hh] at hres
              exact ih hrest w s acc' hres
          · simp only [scanCells, hc, hd, if_neg hx1, if_neg hx2] at hres
            exact ih hrest w d acc' hres
    · have hx : x ≠ "Izquierda" := fun he => hhd (by rw [hc, he])
      simp only [scanCells, hc, if_neg hx] at hres
      exact ih hrest w d acc' hres

theorem scanCells_dummy_filter (tds : List Td)
    (h : ∀ td ∈ tds, td.cls = some "Izquierda" → td.txt.head?.map strTrim = some "dummy") :
    ∀ (w : Int) (d : String),
      scanCells tds ("dummy", w, d) =
        scanCells (tds.filter (fun td => decide (td.cls ≠ some "Izquierda"))) ("dummy", w, d) := by
  induction tds with
  | nil => intro w d; rfl
  | cons td rest ih =>
    intro w d
    have hrest : ∀ td' ∈ rest,
        td'.cls = some "Izquierda" → td'.txt.head?.map strTrim = some "dummy" :=
      fun td' ht => h td' (List.mem_cons_of_mem _ ht)
    have hhd := h td (List.mem_cons_self _ _)
    rcases hc : td.cls with _ | x
    · have hkeep : (decide (td.cls ≠ some "Izquierda")) = true := by simp [hc]
      rw [List.filter_cons, if_pos hkeep]
      rcases hd : td.dataTh with _ | x
      · simp only [scanCells, hc, hd]
        exact ih hrest w d
      · by_cases hx1 : x = "% sobre el capital"
        · subst hx1
          simp only [scanCells, hc, hd, if_pos]
          rcases hh : td.txt.head? with _ | s
          · simp only [hh]
          · simp only [hh]
            rcases hp : parseF32 (replaceCommas s) with _ | v
            · simp only [hp]
            · simp only [hp]
              exact ih hrest v d
        · by_cases hx2 : x = "Fecha de la posición"
          · subst hx2
            simp only [scanCells, hc, hd, if_neg hx1, if_pos]
            rcases hh : td.txt.head? with _ | s
            · simp only [hh]
            · simp only [hh]
              exact ih hrest w s
          · simp only [scanCells, hc, hd, if_neg hx1, if_neg hx2]
            exact ih hrest w d
    · by_cases hx : x = "Izquierda"
      · subst hx
        have hdummy := hhd hc
        rcases hh : td.txt.head? with _ | s
        · rw [hh] at hdummy; cases hdummy
        · rw [hh] at hdummy
          have hs : strTrim s = "dummy" := by simpa using hdummy
          have hdrop : ¬ ((decide (td.cls ≠ some "Izquierda")) = true) := by simp [hc]
          rw [List.filter_cons, if_neg hdrop]
          simp only [scanCells, hc, if_pos, hh, hs]
          exact ih hrest w d
      · have hkeep : (decide (td.cls ≠ some "Izquierda")) = true := by simp [hc, hx]
        rw [List.filter_cons, if_pos hkeep]
        simp only [scanCells, hc, if_neg hx]
        exact ih hrest w d

/-- Claim C10: a row whose `class="Izquierda"` owner cells all read `"dummy"`
after trimming is processed exactly as if it had no owner cells at all, and it
never yields a position — the extractor's `"dummy"` initial value doubles as
the no-owner sentinel. -/
theorem c10_dummy_owner_dropped (conv : Nat → Nat → Nat → Option Int) (tick : String)
    (tds : List Td)
    (h : ∀ td ∈ tds, td.cls = some "Izquierda" → td.txt.head?.map strTrim = some "dummy") :
    processRow conv tick tds =
      processRow conv tick (tds.filter (fun td => decide (td.cls ≠ some "Izquierda"))) ∧
    ∀ r, processRow conv tick tds = .ok r → r = none := by
  have hfil := scanCells_dummy_filter tds h 0 "nodate"
  constructor
  · rw [processRow, processRow, hfil]
  · intro r hr
    rw [processRow, hfil] at hr
    rcases hsc : scanCells (tds.filter (fun td => decide (td.cls ≠ some "Izquierda")))
        ("dummy", 0, "nodate") with acc | e | _
    · have hacc : acc.1 = "dummy" := by
        refine scanCells_owner_const _ "dummy" ?_ 0 "nodate" acc hsc
        intro td htd
        have := List.of_mem_filter htd
        simpa using this
      simp only [hsc] at hr
      rcases acc with ⟨o, w, d⟩
      simp only at hacc
      subst hacc
      simp only [if_pos] at hr
      cases hr
      rfl
    · simp only [hsc] at hr
      cases hr
    · simp only [hsc] at hr
      cases hr

/-- Witness for C10 at a concrete row. -/
theorem c10_dummy_owner_dropped_witness :
    (∀ td ∈ [Td.mk (some "Izquierda") none [" dummy "],
             Td.mk none (some "% sobre el capital") ["0,53"]],
        td.cls = some "Izquierda" → td.txt.head?.map strTrim = some "dummy") ∧
    (processRow (fun _ _ _ => some 0) "GRF"
        [Td.mk (some "Izquierda") none [" dummy "],
         Td.mk none (some "% sobre el capital") ["0,53"]] =
      processRow (fun _ _ _ => some 0) "GRF"
        ([Td.mk (some "Izquierda") none [" dummy "],
          Td.mk none (some "% sobre el capital") ["0,53"]].filter
            (fun td => decide (td.cls ≠ some "Izquierda"))) ∧
      ∀ r, processRow (fun _ _ _ => some 0) "GRF"
          [Td.mk (some "Izquierda") none [" dummy "],
           Td.mk none (some "% sobre el capital") ["0,53"]] = .ok r → r = none) :=
  ⟨by decide, c10_dummy_owner_dropped (fun _ _ _ => some 0) "GRF" _ (by decide)⟩

/-! ## Claim C3 — company-scoped failure isolation -/

theorem Res.bind_assoc {α β γ : Type} (x : Res α) (f : α → Res β) (g : β → Res γ) :
    (x.bind f).bind g = x.bind fun a => (f a).bind g := by
  cases x <;> rfl

theorem addTodayData_append (cs1 cs2 : List CompanyFetch) (st : St) :
    addTodayData (cs1 ++ cs2) st =
      (addTodayData cs1 st).bind fun x =>
        (addTodayData cs2 x.1).bind fun y => .ok (y.1, x.2 ++ y.2) := by
  induction cs1 generalizing st with
  | nil =>
    simp only [List.nil_append, addTodayData, Res.bind_ok]
    rcases addTodayData cs2 st with y | e | _ <;> simp [Res.bind]
  | cons c cs1' ih =>
    simp only [List.cons_append, addTodayData]
    by_cases hid : c.extra_id.isSome
    · rw [if_pos hid, if_pos hid]
      rcases hscr : c.scrape with e | news
      · rfl
      · rcases hdp : diffPass news (storedOf st.db c.ticker) st with x | e | _
        · simp only [hdp, Res.bind_ok, List.append_eq]
          rw [ih x.1, Res.bind_assoc]
          rcases hA : addTodayData cs1' x.1 with u | e | _
          · simp only [hA, Res.bind_ok, Res.bind_assoc]
            rcases hB : addTodayData cs2 u.1 with v | e | _
            · simp only [hB, Res.bind_ok]
              cases hx : x.2.1 <;> simp
            · rfl
            · rfl
          · rfl
          · rfl
        · simp [hdp, Res.bind]
        · simp [hdp, Res.bind]
    · rw [if_neg hid, if_neg hid]
      exact ih st

/-- Claim C3 (counterexample): a batch of two companies where the first
company's scrape fails (`UnknownCompanyError`) and the second would succeed —
`add_today_data` propagates the first failure with `?` and returns the error;
the second company, which processed alone yields an insert and an updated
ticker, is never processed. -/
theorem c3_counterexample :
    addTodayData
      [⟨"T1", some "NIF1", .error .UnknownCompany⟩,
       ⟨"T2", some "NIF2", .ok [⟨"F", 5, 0, "T2"⟩]⟩] ⟨⟨[], []⟩, 1⟩ =
      .err (.cnmv .UnknownCompany) ∧
    addTodayData [⟨"T2", some "NIF2", .ok [⟨"F", 5, 0, "T2"⟩]⟩] ⟨⟨[], []⟩, 1⟩ =
      .ok (⟨⟨[1], [⟨1, "F", 5, 0, "T2"⟩]⟩, 2⟩, ["T2"]) := by
  decide

/-- Claim C3 (amended): failures are not company-scoped — the first
classification or extraction failure among the identifier-bearing companies
aborts `add_today_data` with that error, and no subsequent company is
processed. -/
theorem c3_batch_aborts_on_failure (cs1 cs2 : List CompanyFetch) (c : CompanyFetch)
    (st st1 : St) (tks : List String) (e : CnmvError)
    (h1 : addTodayData cs1 st = .ok (st1, tks))
    (h2 : c.extra_id.isSome = true) (h3 : c.scrape = .error e) :
    addTodayData (cs1 ++ c :: cs2) st = .err (.cnmv e) := by
  rw [addTodayData_append, h1, Res.bind_ok]
  show Res.bind (addTodayData (c :: cs2) st1) _ = _
  rw [addTodayData]
  rw [if_pos h2, h3]
  rfl

/-- Witness for the amended C3 at a concrete batch. -/
theorem c3_batch_aborts_on_failure_witness :
    addTodayData [⟨"T0", none, .ok []⟩] ⟨⟨[], []⟩, 1⟩ = .ok (⟨⟨[], []⟩, 1⟩, []) ∧
    (⟨"T1", some "NIF1", .error (.ExternalError "500")⟩ : CompanyFetch).extra_id.isSome = true ∧
    (⟨"T1", some "NIF1", .error (.ExternalError "500")⟩ : CompanyFetch).scrape =
      .error (.ExternalError "500") ∧
    addTodayData
      ([⟨"T0", none, .ok []⟩] ++
        ⟨"T1", some "NIF1", .error (.ExternalError "500")⟩ ::
          [⟨"T2", some "NIF2", .ok [⟨"F", 5, 0, "T2"⟩]⟩]) ⟨⟨[], []⟩, 1⟩ =
      .err (.cnmv (.ExternalError "500")) :=
  ⟨by decide, by decide, by decide,
    c3_batch_aborts_on_failure [⟨"T0", none, .ok []⟩]
      [⟨"T2", some "NIF2", .ok [⟨"F", 5, 0, "T2"⟩]⟩]
      ⟨"T1", some "NIF1", .error (.ExternalError "500")⟩
      ⟨⟨[], []⟩, 1⟩ ⟨⟨[], []⟩, 1⟩ [] (.ExternalError "500") (by decide) (by decide) (by decide)⟩

/-! ## Reconciliation loop characterizations -/

theorem scanFull_rows (p : Pos) (R : List Row) :
    scanFull p (R.map Row.toBd) = .ok (R.any (fun r => decide (Row.toPos r = p))) := by
  induction R with
  | nil => rfl
  | cons r R' ih =>
    simp only [List.map_cons, scanFull, tryFromBd_toBd, List.any_cons]
    by_cases hpr : p = r.toPos
    · rw [if_pos hpr]
      simp [hpr]
    · rw [if_neg hpr, ih]
      have hne : Row.toPos r ≠ p := fun h => hpr h.symm
      simp [hne]

theorem scanKey_toBd (r : Row) (P : List Pos) :
    scanKey r.toBd P =
      .ok (P.any (fun p => decide (p.owner = r.owner ∧ p.ticker = r.ticker))) := by
  induction P with
  | nil => rfl
  | cons p rest ih =>
    simp only [scanKey, tryFromBd_toBd, List.any_cons]
    by_cases hm : p.owner = (Row.toPos r).owner ∧ p.ticker = (Row.toPos r).ticker
    · rw [if_pos hm]
      have : (decide (p.owner = r.owner ∧ p.ticker = r.ticker)) = true := by
        simpa [Row.toPos] using hm
      simp [this]
    · rw [if_neg hm, ih]
      have : (decide (p.owner = r.owner ∧ p.ticker = r.ticker)) = false := by
        simpa [Row.toPos] using hm
      simp [this]

theorem loop1_flag_trace (R : List Row) :
    ∀ (P : List Pos) (st : St) (flag : Bool) (tr : List Op),
      ∃ st' tr₂,
        loop1 (R.map Row.toBd) P st flag tr =
          .ok (st',
            flag && !(P.any (fun p => R.any (fun r => decide (Row.toPos r = p)))),
            tr ++ tr₂) ∧
        ∀ op ∈ tr₂, op.isRetire = false := by
  intro P
  induction P with
  | nil =>
    intro st flag tr
    exact ⟨st, [], by simp [loop1], by simp⟩
  | cons p rest ih =>
    intro st flag tr
    rw [loop1, scanFull_rows]
    cases hm : R.any (fun r => decide (Row.toPos r = p))
    · rcases hap : activePosition st.db p.ticker p.owner with _ | r
      · obtain ⟨st', tr₂, hres, hnr⟩ := ih (insertPos st p none) flag (tr ++ [.insertNew st.next p])
        refine ⟨st', .insertNew st.next p :: tr₂, ?_, ?_⟩
        · show loop1 (R.map Row.toBd) rest (insertPos st p none) flag
            (tr ++ [.insertNew st.next p]) = _
          rw [hres]
          simp [List.any_cons, hm, List.append_assoc]
        · intro op hop
          rcases List.mem_cons.mp hop with h | h
          · subst h; rfl
          · exact hnr op h
      · obtain ⟨st', tr₂, hres, hnr⟩ :=
          ih (insertPos st p (some r.id)) flag (tr ++ [.rekey r.id st.next p])
        refine ⟨st', .rekey r.id st.next p :: tr₂, ?_, ?_⟩
        · show loop1 (R.map Row.toBd) rest (insertPos st p (some r.id)) flag
            (tr ++ [.rekey r.id st.next p]) = _
          rw [hres]
          simp [List.any_cons, hm, List.append_assoc]
        · intro op hop
          rcases List.mem_cons.mp hop with h | h
          · subst h; rfl
          · exact hnr op h
    · obtain ⟨st', tr₂, hres, hnr⟩ := ih st false tr
      refine ⟨st', tr₂, ?_, hnr⟩
      show loop1 (R.map Row.toBd) rest st false tr = _
      rw [hres]
      simp [List.any_cons, hm]

theorem loop2_flag_trace (P : List Pos) :
    ∀ (R : List Row) (st : St) (flag : Bool) (tr : List Op),
      ∃ st',
        loop2 P (R.map Row.toBd) st flag tr =
          .ok (st', flag || !(wipedRows R P).isEmpty,
            tr ++ (wipedRows R P).map (fun r => Op.retire r.id)) := by
  intro R
  induction R with
  | nil =>
    intro st flag tr
    exact ⟨st, by simp [loop2, wipedRows]⟩
  | cons r R' ih =>
    intro st flag tr
    rw [List.map_cons, loop2, scanKey_toBd]
    cases hm : P.any (fun p => decide (p.owner = r.owner ∧ p.ticker = r.ticker))
    · obtain ⟨st', hres⟩ :=
        ih ⟨wipeShortPosition st.db r.id, st.next⟩ true (tr ++ [.retire r.id])
      refine ⟨st', ?_⟩
      show loop2 P (R'.map Row.toBd) _ _ _ = _
      rw [hres]
      have hw : wipedRows (r :: R') P = r :: wipedRows R' P := by
        simp only [wipedRows, List.filter_cons, hm, Bool.not_false]
        simp
      rw [hw]
      simp [List.append_assoc]
    · obtain ⟨st', hres⟩ := ih st flag tr
      refine ⟨st', ?_⟩
      show loop2 P (R'.map Row.toBd) st flag tr = _
      rw [hres]
      have hw : wipedRows (r :: R') P = wipedRows R' P := by
        simp only [wipedRows, List.filter_cons, hm, Bool.not_true]
        simp
      rw [hw]

/-! ## Claim C2 — the changed flag -/

/-- Claim C2 (counterexample): stored holds only FundA's position, the page
yields FundA unchanged plus a brand-new position by FundC; the pass performs
an insert (the trace holds `insertNew`) yet the flag comes back `false` — the
ticker is not added to `updated_tickers`, because `insert_ticker` was cleared
by FundA's structural match and the insert path never sets it. -/
theorem c2_counterexample :
    diffPass [⟨"A", 10, 0, "T"⟩, ⟨"C", 5, 0, "T"⟩]
      (storedOf ⟨[1], [⟨1, "A", 10, 0, "T"⟩]⟩ "T") ⟨⟨[1], [⟨1, "A", 10, 0, "T"⟩]⟩, 2⟩ =
      .ok (⟨⟨[1, 2], [⟨1, "A", 10, 0, "T"⟩, ⟨2, "C", 5, 0, "T"⟩]⟩, 3⟩, false,
        [.insertNew 2 ⟨"C", 5, 0, "T"⟩]) ∧
    ([Op.insertNew 2 ⟨"C", 5, 0, "T"⟩] : List Op) ≠ [] := by
  constructor
  · decide
  · decide

/-- Claim C2 (amended): in the both-non-empty case the ticker is pushed iff a
retirement occurred or no fresh position structurally matched a stored one —
an insert or re-key alone does not set the flag when some other position
matched. -/
theorem c2_flag_characterization (t : String) (st : St) (P : List Pos)
    (hP : P ≠ []) (hS : storedOf st.db t ≠ []) :
    ∃ st' flag tr, diffPass P (storedOf st.db t) st = .ok (st', flag, tr) ∧
      (flag = true ↔
        ((∃ op ∈ tr, op.isRetire = true) ∨
          ∀ p ∈ P, ∀ r ∈ joinRows st.db t, Row.toPos r ≠ p)) := by
  obtain ⟨st1, tr₂, hres1, hnr⟩ := loop1_flag_trace (joinRows st.db t) P st true []
  obtain ⟨st2, hres2⟩ := loop2_flag_trace P (joinRows st.db t) st1
    (true && !(P.any (fun p => (joinRows st.db t).any (fun r => decide (Row.toPos r = p)))))
    ([] ++ tr₂)
  refine ⟨st2,
    (true && !(P.any (fun p => (joinRows st.db t).any (fun r => decide (Row.toPos r = p))))) ||
      !(wipedRows (joinRows st.db t) P).isEmpty,
    ([] ++ tr₂) ++ (wipedRows (joinRows st.db t) P).map (fun r => Op.retire r.id),
    ?_, ?_⟩
  · rw [diffPass, if_neg (fun h => hS h.1), if_neg hS, if_neg hP]
    simp only [storedOf] at hres1 hres2 ⊢
    rw [hres1, Res.bind_ok, hres2]
  · have h1 : (∃ op ∈ ([] ++ tr₂) ++
        (wipedRows (joinRows st.db t) P).map (fun r => Op.retire r.id), op.isRetire = true) ↔
        wipedRows (joinRows st.db t) P ≠ [] := by
      constructor
      · rintro ⟨op, hop, hret⟩ hnil
        rw [hnil] at hop
        simp only [List.map_nil, List.append_nil, List.nil_append] at hop
        rw [hnr op hop] at hret
        cases hret
      · intro hne
        obtain ⟨r, hr⟩ := List.exists_mem_of_ne_nil _ hne
        exact ⟨Op.retire r.id,
          List.mem_append_right _ (List.mem_map_of_mem _ hr), rfl⟩
    have h2 : (∀ p ∈ P, ∀ r ∈ joinRows st.db t, Row.toPos r ≠ p) ↔
        (P.any (fun p => (joinRows st.db t).any (fun r => decide (Row.toPos r = p)))) = false := by
      simp
    have h3 : wipedRows (joinRows st.db t) P ≠ [] ↔
        (!(wipedRows (joinRows st.db t) P).isEmpty) = true := by
      simp [List.isEmpty_iff]
    rw [h1, h2, h3, Bool.true_and, Bool.or_eq_true, Bool.not_eq_true']
    tauto

/-- Witness for the amended C2 at a concrete store. -/
theorem c2_flag_characterization_witness :
    ([⟨"B", 7, 0, "T"⟩] : List Pos) ≠ [] ∧
    storedOf ⟨[1], [⟨1, "A", 10, 0, "T"⟩]⟩ "T" ≠ [] ∧
    ∃ st' flag tr,
      diffPass [⟨"B", 7, 0, "T"⟩] (storedOf ⟨[1], [⟨1, "A", 10, 0, "T"⟩]⟩ "T")
          ⟨⟨[1], [⟨1, "A", 10, 0, "T"⟩]⟩, 2⟩ = .ok (st', flag, tr) ∧
        (flag = true ↔
          ((∃ op ∈ tr, op.isRetire = true) ∨
            ∀ p ∈ ([⟨"B", 7, 0, "T"⟩] : List Pos),
              ∀ r ∈ joinRows ⟨[1], [⟨1, "A", 10, 0, "T"⟩]⟩ "T", Row.toPos r ≠ p)) :=
  ⟨by decide, by decide,
    c2_flag_characterization "T" ⟨⟨[1], [⟨1, "A", 10, 0, "T"⟩]⟩, 2⟩ [⟨"B", 7, 0, "T"⟩]
      (by decide) (by decide)⟩

/-! ## Claim C7 — no spurious writes -/

theorem loop1_allmatch (R : List Row) :
    ∀ (P : List Pos) (st : St) (flag : Bool) (tr : List Op),
      (∀ p ∈ P, ∃ r ∈ R, Row.toPos r = p) →
      loop1 (R.map Row.toBd) P st flag tr = .ok (st, flag && P.isEmpty, tr) := by
  intro P
  induction P with
  | nil => intro st flag tr _; simp [loop1]
  | cons p rest ih =>
    intro st flag tr h
    rw [loop1, scanFull_rows]
    have hp : (R.any fun r => decide (Row.toPos r = p)) = true := by
      obtain ⟨r, hr, hrp⟩ := h p (List.mem_cons_self _ _)
      exact List.any_eq_true.mpr ⟨r, hr, by simp [hrp]⟩
    rw [hp]
    show loop1 (R.map Row.toBd) rest st false tr = _
    rw [ih st false tr (fun q hq => h q (List.mem_cons_of_mem _ hq))]
    simp

theorem loop2_allmatch (P : List Pos) :
    ∀ (R : List Row) (st : St) (flag : Bool) (tr : List Op),
      (∀ r ∈ R, ∃ p ∈ P, p.owner = r.owner ∧ p.ticker = r.ticker) →
      loop2 P (R.map Row.toBd) st flag tr = .ok (st, flag, tr) := by
  intro R
  induction R with
  | nil => intro st flag tr _; rfl
  | cons r R' ih =>
    intro st flag tr h
    rw [List.map_cons, loop2, scanKey_toBd]
    have hr : (P.any fun p => decide (p.owner = r.owner ∧ p.ticker = r.ticker)) = true := by
      obtain ⟨p, hp, hm⟩ := h r (List.mem_cons_self _ _)
      exact List.any_eq_true.mpr ⟨p, hp, by simp [hm]⟩
    rw [hr]
    show loop2 P (R'.map Row.toBd) st flag tr = _
    exact ih st flag tr (fun q hq => h q (List.mem_cons_of_mem _ hq))

/-- Claim C7: when the fresh snapshot is structurally identical (as a
multiset) to the stored active positions, the pass leaves the store untouched,
emits no mutation, and does not mark the company changed. -/
theorem c7_no_spurious_writes (t : String) (st : St) (P : List Pos)
    (hperm : P.Perm ((joinRows st.db t).map Row.toPos)) :
    diffPass P (storedOf st.db t) st = .ok (st, false, []) := by
  by_cases hR : joinRows st.db t = []
  · have hP : P = [] := by
      rw [hR] at hperm
      simpa using hperm.eq_nil
    subst hP
    rw [diffPass, if_pos ⟨by simp [storedOf, hR], rfl⟩]
  · have hS : storedOf st.db t ≠ [] := by
      simpa [storedOf] using hR
    have hP : P ≠ [] := by
      intro h
      subst h
      exact hR (by simpa using hperm.symm.eq_nil)
    rw [diffPass, if_neg (fun h => hS h.1), if_neg hS, if_neg hP]
    have hmem1 : ∀ p ∈ P, ∃ r ∈ joinRows st.db t, Row.toPos r = p := by
      intro p hp
      obtain ⟨r, hr, hrp⟩ := List.mem_map.mp (hperm.subset hp)
      exact ⟨r, hr, hrp⟩
    have hmem2 : ∀ r ∈ joinRows st.db t, ∃ p ∈ P, p.owner = r.owner ∧ p.ticker = r.ticker := by
      intro r hr
      exact ⟨Row.toPos r, hperm.symm.subset (List.mem_map_of_mem _ hr), rfl, rfl⟩
    simp only [storedOf]
    rw [loop1_allmatch _ P st true [] hmem1]
    have hPe : P.isEmpty = false := by
      cases P with
      | nil => exact absurd rfl hP
      | cons a l => rfl
    rw [hPe]
    simp only [Bool.and_false, Res.bind_ok]
    exact loop2_allmatch P _ st false [] hmem2

/-- Witness for C7 at a concrete store. -/
theorem c7_no_spurious_writes_witness :
    ([⟨"A", 10, 0, "T"⟩] : List Pos).Perm
      ((joinRows ⟨[1], [⟨1, "A", 10, 0, "T"⟩]⟩ "T").map Row.toPos) ∧
    diffPass [⟨"A", 10, 0, "T"⟩] (storedOf ⟨[1], [⟨1, "A", 10, 0, "T"⟩]⟩ "T")
        ⟨⟨[1], [⟨1, "A", 10, 0, "T"⟩]⟩, 2⟩ =
      .ok (⟨⟨[1], [⟨1, "A", 10, 0, "T"⟩]⟩, 2⟩, false, []) :=
  ⟨by decide,
    c7_no_spurious_writes "T" ⟨⟨[1], [⟨1, "A", 10, 0, "T"⟩]⟩, 2⟩ [⟨"A", 10, 0, "T"⟩] (by decide)⟩

/-! ## Claim C6 — update, not insert-plus-retire -/

/-- Claim C6: with one stored position and one fresh position agreeing on
owner (and ticker) but differing in weight, the pass performs exactly one
update: it allocates the fresh token `st.next`, re-points the existing
active-set row to it, appends exactly one historical row, emits the single
`rekey` mutation (no insert, no retire), and marks the company changed. -/
theorem c6_update_not_reissue (t : String) (st : St) (r : Row) (p : Pos)
    (hjoin : joinRows st.db t = [r])
    (howner : r.owner = p.owner) (hticker : p.ticker = t)
    (hweight : r.weight ≠ p.weight) :
    diffPass [p] (storedOf st.db t) st =
      .ok (⟨⟨st.db.alive.map (fun a => if a = r.id then st.next else a),
             st.db.historic ++ [mkRow st.next p]⟩, st.next + 1⟩,
        true, [.rekey r.id st.next p]) := by
  have hrmem : r ∈ joinRows st.db t := by rw [hjoin]; exact List.mem_singleton.mpr rfl
  have hcond := (List.mem_filter.mp hrmem).2
  rw [decide_eq_true_eq] at hcond
  have hrt : r.ticker = t := hcond.1
  have hne : p ≠ Row.toPos r := by
    intro h
    exact hweight (by rw [h]; rfl)
  have hsf : scanFull p [r.toBd] = .ok false := by
    simp only [scanFull, tryFromBd_toBd, if_neg hne]
  have hap : activePosition st.db p.ticker p.owner = some r := by
    rw [activePosition, hticker, hjoin]
    simp [howner]
  have hl1 : loop1 [r.toBd] [p] st true [] =
      .ok (insertPos st p (some r.id), true, [.rekey r.id st.next p]) := by
    rw [loop1]
    simp only [hsf, hap]
    rfl
  have hsk : scanKey r.toBd [p] = .ok true := by
    simp only [scanKey, tryFromBd_toBd]
    rw [if_pos ⟨howner.symm, by rw [hticker, ← hrt]; rfl⟩]
  have hl2 : loop2 [p] [r.toBd] (insertPos st p (some r.id)) true [.rekey r.id st.next p] =
      .ok (insertPos st p (some r.id), true, [.rekey r.id st.next p]) := by
    rw [loop2]
    simp only [hsk]
    rfl
  have hS : storedOf st.db t ≠ [] := by simp [storedOf, hjoin]
  have hP : ([p] : List Pos) ≠ [] := by simp
  rw [diffPass, if_neg (fun h => hS h.1), if_neg hS, if_neg hP]
  simp only [storedOf, hjoin, List.map_cons, List.map_nil]
  rw [hl1]
  simp only [Res.bind_ok]
  rw [hl2]
  rfl

/-- Witness for C6 at a concrete store. -/
theorem c6_update_not_reissue_witness :
    joinRows ⟨[1], [⟨1, "A", 10, 0, "T"⟩]⟩ "T" = [⟨1, "A", 10, 0, "T"⟩] ∧
    diffPass [⟨"A", 20, 0, "T"⟩] (storedOf ⟨[1], [⟨1, "A", 10, 0, "T"⟩]⟩ "T")
        ⟨⟨[1], [⟨1, "A", 10, 0, "T"⟩]⟩, 2⟩ =
      .ok (⟨⟨([1] : List Nat).map (fun a => if a = 1 then 2 else a),
             [⟨1, "A", 10, 0, "T"⟩] ++ [mkRow 2 ⟨"A", 20, 0, "T"⟩]⟩, 2 + 1⟩,
        true, [.rekey 1 2 ⟨"A", 20, 0, "T"⟩]) :=
  ⟨by decide,
    c6_update_not_reissue "T" ⟨⟨[1], [⟨1, "A", 10, 0, "T"⟩]⟩, 2⟩ ⟨1, "A", 10, 0, "T"⟩
      ⟨"A", 20, 0, "T"⟩ (by decide) (by decide) (by decide) (by decide)⟩

/-! ## Effect of the storage primitives on the join -/

theorem joinRows_insert_new (st : St) (p : Pos) (t : String)
    (hfresh : ∀ h ∈ st.db.historic, h.id ≠ st.next) :
    joinRows (insertPos st p none).db t =
      joinRows st.db t ++ if p.ticker = t then [mkRow st.next p] else [] := by
  show joinRows ⟨st.db.alive ++ [st.next], st.db.historic ++ [mkRow st.next p]⟩ t = _
  rw [joinRows, List.filter_append, joinRows]
  congr 1
  · apply List.filter_congr
    intro h hm
    rw [decide_eq_decide]
    have := hfresh h hm
    simp [List.mem_append, this]
  · by_cases hp : p.ticker = t
    · rw [if_pos hp]
      simp [mkRow, hp, List.mem_append]
    · rw [if_neg hp]
      simp [mkRow, hp]

theorem joinRows_rekey (st : St) (p : Pos) (old : Nat) (t : String)
    (hfresh : ∀ h ∈ st.db.historic, h.id ≠ st.next)
    (hold : old ∈ st.db.alive) :
    joinRows (insertPos st p (some old)).db t =
      (joinRows st.db t).filter (fun r => decide (r.id ≠ old)) ++
        if p.ticker = t then [mkRow st.next p] else [] := by
  show joinRows ⟨st.db.alive.map (fun a => if a = old then st.next else a),
      st.db.historic ++ [mkRow st.next p]⟩ t = _
  rw [joinRows, List.filter_append, joinRows, List.filter_filter]
  congr 1
  · apply List.filter_congr
    intro h hm
    have hne : h.id ≠ st.next := hfresh h hm
    have hmem : h.id ∈ st.db.alive.map (fun a => if a = old then st.next else a) ↔
        (h.id ∈ st.db.alive ∧ h.id ≠ old) := by
      simp only [List.mem_map]
      constructor
      · rintro ⟨a, ha, hfa⟩
        by_cases hao : a = old
        · rw [if_pos hao] at hfa
          exact absurd hfa.symm hne
        · rw [if_neg hao] at hfa
          exact ⟨hfa ▸ ha, hfa ▸ hao⟩
      · rintro ⟨ha, hne'⟩
        exact ⟨h.id, ha, by rw [if_neg hne']⟩
    rw [← Bool.decide_and, decide_eq_decide]
    constructor
    · rintro ⟨ht, hm2⟩
      obtain ⟨ha, hne'⟩ := hmem.mp hm2
      exact ⟨hne', ht, ha⟩
    · rintro ⟨hb, ht, ha⟩
      exact ⟨ht, hmem.mpr ⟨ha, hb⟩⟩
  · have hnextmem : st.next ∈ st.db.alive.map (fun a => if a = old then st.next else a) :=
      List.mem_map.mpr ⟨old, hold, by rw [if_pos rfl]⟩
    by_cases hp : p.ticker = t
    · rw [if_pos hp]
      have hcond : (decide ((mkRow st.next p).ticker = t ∧ (mkRow st.next p).id ∈
          st.db.alive.map (fun a => if a = old then st.next else a))) = true := by
        rw [decide_eq_true_eq]
        exact ⟨hp, hnextmem⟩
      rw [List.filter_cons, if_pos hcond]
      rfl
    · rw [if_neg hp]
      simp [mkRow, hp]

theorem joinRows_wipe (db : Db) (w : Nat) (t : String)
    (h0 : ∀ h ∈ db.historic, h.id ≠ 0) :
    joinRows (wipeShortPosition db w) t =
      (joinRows db t).filter (fun r => decide (r.id ≠ w)) := by
  show joinRows ⟨db.alive.map (fun a => if a = w then 0 else a), db.historic⟩ t = _
  rw [joinRows, joinRows, List.filter_filter]
  apply List.filter_congr
  intro h hm
  have h0h := h0 h hm
  have hmem : h.id ∈ db.alive.map (fun a => if a = w then 0 else a) ↔
      (h.id ∈ db.alive ∧ h.id ≠ w) := by
    simp only [List.mem_map]
    constructor
    · rintro ⟨a, ha, hfa⟩
      by_cases haw : a = w
      · rw [if_pos haw] at hfa
        exact absurd hfa.symm h0h
      · rw [if_neg haw] at hfa
        exact ⟨hfa ▸ ha, hfa ▸ haw⟩
    · rintro ⟨ha, hnw⟩
      exact ⟨h.id, ha, by rw [if_neg hnw]⟩
  rw [← Bool.decide_and, decide_eq_decide]
  constructor
  · rintro ⟨ht, hm2⟩
    obtain ⟨ha, hnw⟩ := hmem.mp hm2
    exact ⟨hnw, ht, ha⟩
  · rintro ⟨hb, ht, ha⟩
    exact ⟨ht, hmem.mpr ⟨ha, hb⟩⟩

/-! ## Preservation of store well-formedness -/

theorem filter_map_comm (f : Nat → Nat) (p : Nat → Bool) (l : List Nat) :
    (l.map f).filter p = (l.filter (fun a => p (f a))).map f := by
  induction l with
  | nil => rfl
  | cons a tl ih =>
    simp only [List.map_cons, List.filter_cons]
    by_cases hp : p (f a) = true
    · rw [if_pos hp, if_pos hp, List.map_cons, ih]
    · rw [if_neg hp, if_neg hp, ih]

theorem wf_insert_new (st : St) (p : Pos) (h : st.wf) : (insertPos st p none).wf := by
  unfold St.wf at h ⊢
  obtain ⟨h1, h2, h3, h4, h5⟩ := h
  simp only [insertPos]
  refine ⟨by omega, ?_, ?_, ?_, ?_⟩
  · intro r hr
    rcases List.mem_append.mp hr with hr | hr
    · exact ⟨by have := (h2 r hr).1; omega, (h2 r hr).2⟩
    · rw [List.mem_singleton.mp hr]
      refine ⟨?_, ?_⟩
      · show st.next < st.next + 1
        omega
      · show st.next ≠ 0
        omega
  · rw [List.map_append, List.nodup_append]
    refine ⟨h3, by simp, ?_⟩
    intro a ha hb
    simp only [List.map_cons, List.map_nil, List.mem_singleton] at hb
    obtain ⟨r, hr, hrid⟩ := List.mem_map.mp ha
    have := (h2 r hr).1
    simp [mkRow] at hb
    omega
  · intro a ha
    rcases List.mem_append.mp ha with ha | ha
    · have := h4 a ha; omega
    · rw [List.mem_singleton.mp ha]; omega
  · rw [List.filter_append]
    rw [List.nodup_append]
    refine ⟨h5, List.Nodup.filter _ (by simp), ?_⟩
    intro a ha hb
    have ha' : a ∈ st.db.alive := List.mem_of_mem_filter ha
    have hb' : a ∈ [st.next] := List.mem_of_mem_filter hb
    have := h4 a ha'
    rw [List.mem_singleton.mp hb'] at this
    omega

theorem wf_rekey (st : St) (p : Pos) (old : Nat) (h : st.wf) (hold0 : old ≠ 0) :
    (insertPos st p (some old)).wf := by
  unfold St.wf at h ⊢
  obtain ⟨h1, h2, h3, h4, h5⟩ := h
  simp only [insertPos]
  refine ⟨by omega, ?_, ?_, ?_, ?_⟩
  · intro r hr
    rcases List.mem_append.mp hr with hr | hr
    · exact ⟨by have := (h2 r hr).1; omega, (h2 r hr).2⟩
    · rw [List.mem_singleton.mp hr]
      refine ⟨?_, ?_⟩
      · show st.next < st.next + 1
        omega
      · show st.next ≠ 0
        omega
  · rw [List.map_append, List.nodup_append]
    refine ⟨h3, by simp, ?_⟩
    intro a ha hb
    simp only [List.map_cons, List.map_nil, List.mem_singleton] at hb
    obtain ⟨r, hr, hrid⟩ := List.mem_map.mp ha
    have := (h2 r hr).1
    simp [mkRow] at hb
    omega
  · intro a ha
    obtain ⟨b, hb, hba⟩ := List.mem_map.mp ha
    by_cases hbo : b = old
    · rw [if_pos hbo] at hba
      omega
    · rw [if_neg hbo] at hba
      have := h4 b hb
      omega
  · have hpt : ∀ a ∈ st.db.alive,
        (decide ((if a = old then st.next else a) ≠ 0)) = (decide (a ≠ 0)) := by
      intro a _
      by_cases hao : a = old
      · subst hao
        rw [if_pos rfl, decide_eq_decide]
        constructor
        · intro _; exact hold0
        · intro _; omega
      · rw [if_neg hao]
    rw [filter_map_comm, List.filter_congr hpt]
    apply List.Nodup.map_on ?_ h5
    intro x hx y hy hxy
    have hx' : x ∈ st.db.alive := List.mem_of_mem_filter hx
    have hy' : y ∈ st.db.alive := List.mem_of_mem_filter hy
    have hxlt := h4 x hx'
    have hylt := h4 y hy'
    by_cases hxo : x = old <;> by_cases hyo : y = old
    · rw [hxo, hyo]
    · rw [if_pos hxo, if_neg hyo] at hxy
      omega
    · rw [if_neg hxo, if_pos hyo] at hxy
      omega
    · rw [if_neg hxo, if_neg hyo] at hxy
      exact hxy

theorem wf_wipe (st : St) (w : Nat) (h : st.wf) :
    (⟨wipeShortPosition st.db w, st.next⟩ : St).wf := by
  unfold St.wf at h ⊢
  obtain ⟨h1, h2, h3, h4, h5⟩ := h
  simp only [wipeShortPosition]
  refine ⟨h1, h2, h3, ?_, ?_⟩
  · intro a ha
    obtain ⟨b, hb, hba⟩ := List.mem_map.mp ha
    by_cases hbw : b = w
    · rw [if_pos hbw] at hba
      omega
    · rw [if_neg hbw] at hba
      have := h4 b hb
      omega
  · rw [filter_map_comm]
    have hpt : ∀ a ∈ st.db.alive,
        (decide ((if a = w then 0 else a) ≠ 0)) =
          ((decide (a ≠ w)) && (decide (a ≠ 0))) := by
      intro a _
      by_cases haw : a = w
      · subst haw
        rw [if_pos rfl]
        simp
      · rw [if_neg haw]
        simp [haw]
    rw [List.filter_congr hpt, ← List.filter_filter]
    have hid : ∀ a ∈ (st.db.alive.filter (fun a => decide (a ≠ 0))).filter
        (fun a => decide (a ≠ w)), (if a = w then 0 else a) = a := by
      intro a ha
      have := List.of_mem_filter ha
      rw [decide_eq_true_eq] at this
      rw [if_neg this]
    rw [List.map_congr_left hid, List.map_id']
    exact List.Nodup.sublist (List.filter_sublist _) h5

@[simp]
theorem toPos_mkRow (n : Nat) (p : Pos) : (mkRow n p).toPos = p := rfl

theorem wf_fresh_historic (st : St) (h : st.wf) : ∀ r ∈ st.db.historic, r.id ≠ st.next := by
  intro r hr
  have := (h.2.1 r hr).1
  omega

theorem wf_historic_ne_zero (st : St) (h : st.wf) : ∀ r ∈ st.db.historic, r.id ≠ 0 :=
  fun r hr => (h.2.1 r hr).2

/-! ## The two empty diff cases -/

theorem insertAll_spec (t : String) :
    ∀ (P : List Pos) (st : St) (tr : List Op),
      st.wf → (∀ p ∈ P, p.ticker = t) →
      ∃ F, (insertAll P st tr).1.wf ∧
        joinRows (insertAll P st tr).1.db t = joinRows st.db t ++ F ∧
        F.map Row.toPos = P := by
  intro P
  induction P with
  | nil =>
    intro st tr hwf _
    exact ⟨[], hwf, by simp [insertAll], rfl⟩
  | cons p rest ih =>
    intro st tr hwf hPt
    obtain ⟨F, hwf', hjoin, hmap⟩ := ih (insertPos st p none) (tr ++ [.insertNew st.next p])
      (wf_insert_new st p hwf) (fun q hq => hPt q (List.mem_cons_of_mem _ hq))
    refine ⟨mkRow st.next p :: F, hwf', ?_, ?_⟩
    · show joinRows (insertAll rest (insertPos st p none) (tr ++ [.insertNew st.next p])).1.db t = _
      rw [hjoin, joinRows_insert_new st p t (wf_fresh_historic st hwf),
        if_pos (hPt p (List.mem_cons_self _ _))]
      simp [List.append_assoc]
    · simp [hmap]

theorem wipeAll_spec :
    ∀ (R : List Row) (st : St) (tr : List Op),
      (∀ h ∈ st.db.historic, h.id ≠ 0) →
      (wipeAll (R.map Row.toBd) st tr).1.db.historic = st.db.historic ∧
      (wipeAll (R.map Row.toBd) st tr).1.next = st.next ∧
      ∀ u, joinRows (wipeAll (R.map Row.toBd) st tr).1.db u =
        (joinRows st.db u).filter (fun r => decide (r.id ∉ R.map Row.id)) := by
  intro R
  induction R with
  | nil =>
    intro st tr _
    refine ⟨rfl, rfl, fun u => ?_⟩
    have : ∀ r ∈ joinRows st.db u, (decide (r.id ∉ ([] : List Row).map Row.id)) = true := by
      intro r _
      simp
    rw [List.filter_congr this, List.filter_true]
    rfl
  | cons r R' ih =>
    intro st tr h0
    obtain ⟨hh, hn, hj⟩ := ih ⟨wipeShortPosition st.db r.id, st.next⟩ (tr ++ [.retire r.id]) h0
    refine ⟨hh, hn, fun u => ?_⟩
    show joinRows (wipeAll (R'.map Row.toBd) ⟨wipeShortPosition st.db r.id, st.next⟩
      (tr ++ [.retire r.id])).1.db u = _
    rw [hj u]
    show (joinRows (wipeShortPosition st.db r.id) u).filter _ = _
    rw [joinRows_wipe st.db r.id u h0, List.filter_filter]
    apply List.filter_congr
    intro x _
    rw [← Bool.decide_and, decide_eq_decide]
    simp only [List.map_cons, List.mem_cons]
    constructor
    · rintro ⟨hnm, hne⟩
      exact fun h => h.elim hne hnm
    · intro h
      exact ⟨fun hm => h (Or.inr hm), fun he => h (Or.inl he)⟩

/-! ## Full characterization of the two diff loops -/

theorem loop2_spec (P : List Pos) :
    ∀ (R : List Row) (st : St) (flag : Bool) (tr : List Op),
      (∀ h ∈ st.db.historic, h.id ≠ 0) →
      ∃ st',
        loop2 P (R.map Row.toBd) st flag tr =
          .ok (st', flag || !(wipedRows R P).isEmpty,
            tr ++ (wipedRows R P).map (fun r => Op.retire r.id)) ∧
        st'.db.historic = st.db.historic ∧ st'.next = st.next ∧
        ∀ u, joinRows st'.db u =
          (joinRows st.db u).filter
            (fun x => decide (x.id ∉ (wipedRows R P).map Row.id)) := by
  intro R
  induction R with
  | nil =>
    intro st flag tr _
    refine ⟨st, by simp [loop2, wipedRows], rfl, rfl, fun u => ?_⟩
    have : ∀ x ∈ joinRows st.db u,
        (decide (x.id ∉ (wipedRows ([] : List Row) P).map Row.id)) = true := by
      intro x _
      simp [wipedRows]
    rw [List.filter_congr this, List.filter_true]
  | cons r R' ih =>
    intro st flag tr h0
    rw [List.map_cons, loop2, scanKey_toBd]
    cases hm : P.any (fun p => decide (p.owner = r.owner ∧ p.ticker = r.ticker))
    · obtain ⟨st', hres, hh, hn, hj⟩ :=
        ih ⟨wipeShortPosition st.db r.id, st.next⟩ true (tr ++ [.retire r.id]) h0
      have hw : wipedRows (r :: R') P = r :: wipedRows R' P := by
        simp only [wipedRows, List.filter_cons, hm, Bool.not_false]
        simp
      refine ⟨st', ?_, hh, hn, fun u => ?_⟩
      · show loop2 P (R'.map Row.toBd) ⟨wipeShortPosition st.db r.id, st.next⟩ true
          (tr ++ [.retire r.id]) = _
        rw [hres, hw]
        simp [List.append_assoc]
      · rw [hj u]
        show (joinRows (wipeShortPosition st.db r.id) u).filter _ = _
        rw [joinRows_wipe st.db r.id u h0, List.filter_filter, hw]
        apply List.filter_congr
        intro x _
        rw [← Bool.decide_and, decide_eq_decide]
        simp only [List.map_cons, List.mem_cons]
        constructor
        · rintro ⟨hnm, hne⟩
          exact fun h => h.elim hne hnm
        · intro h
          exact ⟨fun hmm => h (Or.inr hmm), fun he => h (Or.inl he)⟩
    · obtain ⟨st', hres, hh, hn, hj⟩ := ih st flag tr h0
      have hw : wipedRows (r :: R') P = wipedRows R' P := by
        simp only [wipedRows, List.filter_cons, hm, Bool.not_true]
        simp
      refine ⟨st', ?_, hh, hn, fun u => ?_⟩
      · show loop2 P (R'.map Row.toBd) st flag tr = _
        rw [hres, hw]
      · rw [hj u, hw]

theorem wf_historic_ids_nodup (st : St) (h : st.wf) : (st.db.historic.map Row.id).Nodup :=
  h.2.2.1

theorem loop1_spec (t : String) (R : List Row)
    (hRnd : (R.map Row.owner).Nodup) :
    ∀ (P : List Pos), (∀ p ∈ P, p.ticker = t) → (P.map Pos.owner).Nodup →
    ∀ (st : St) (flag : Bool) (tr : List Op), st.wf →
    (∀ p ∈ P, (joinRows st.db t).filter (fun x => decide (x.owner = p.owner)) =
      R.filter (fun x => decide (x.owner = p.owner))) →
    ∃ st' F tr₂,
      loop1 (R.map Row.toBd) P st flag tr =
        .ok (st', flag && !(P.any (fun p => R.any (fun x => decide (Row.toPos x = p)))),
          tr ++ tr₂) ∧
      st'.wf ∧ st.next ≤ st'.next ∧
      joinRows st'.db t = (joinRows st.db t).filter (keptB R P) ++ F ∧
      F.map Row.toPos = P.filter (freshB R) ∧
      (∀ f ∈ F, st.next ≤ f.id) := by
  intro P
  induction P with
  | nil =>
    intro _ _ st flag tr hwf _
    refine ⟨st, [], [], by simp [loop1], hwf, Nat.le_refl _, ?_, rfl, by simp⟩
    have hk : ∀ x ∈ joinRows st.db t, keptB R [] x = true := fun x _ => rfl
    rw [List.filter_congr hk, List.filter_true, List.append_nil]
  | cons p rest ih =>
    intro hPt hPnd st flag tr hwf hinv
    rw [loop1, scanFull_rows]
    have hptick : p.ticker = t := hPt p (List.mem_cons_self _ _)
    have hrestt : ∀ q ∈ rest, q.ticker = t := fun q hq => hPt q (List.mem_cons_of_mem _ hq)
    have hnd := List.nodup_cons.mp hPnd
    have hpnotin : p.owner ∉ rest.map Pos.owner := hnd.1
    have hrestnd : (rest.map Pos.owner).Nodup := hnd.2
    cases hm : R.any (fun x => decide (Row.toPos x = p))
    case false =>
      have hfilteq := hinv p (List.mem_cons_self _ _)
      rcases hap : activePosition st.db p.ticker p.owner with _ | r₀
      case none =>
        rw [activePosition, hptick, hfilteq] at hap
        have hRempty : R.filter (fun x => decide (x.owner = p.owner)) = [] :=
          List.head?_eq_none_iff.mp hap
        have hwf₁ := wf_insert_new st p hwf
        have hj₁ : joinRows (insertPos st p none).db t =
            joinRows st.db t ++ [mkRow st.next p] := by
          rw [joinRows_insert_new st p t (wf_fresh_historic st hwf), if_pos hptick]
        have hinv₁ : ∀ q ∈ rest,
            (joinRows (insertPos st p none).db t).filter
              (fun x => decide (x.owner = q.owner)) =
            R.filter (fun x => decide (x.owner = q.owner)) := by
          intro q hq
          have hqo : q.owner ≠ p.owner := fun he =>
            hpnotin (he ▸ List.mem_map_of_mem Pos.owner hq)
          rw [hj₁, List.filter_append]
          have hsing : (([mkRow st.next p]).filter
              (fun x => decide (x.owner = q.owner))) = [] := by
            simp [mkRow, Ne.symm hqo]
          rw [hsing, List.append_nil]
          exact hinv q (List.mem_cons_of_mem _ hq)
        obtain ⟨st', F, tr₂, hres, hwf', hle, hjoin, hmap, hFb⟩ :=
          ih hrestt hrestnd (insertPos st p none) flag (tr ++ [.insertNew st.next p]) hwf₁ hinv₁
        refine ⟨st', mkRow st.next p :: F, .insertNew st.next p :: tr₂, ?_, hwf', ?_, ?_, ?_, ?_⟩
        · show loop1 (R.map Row.toBd) rest (insertPos st p none) flag
            (tr ++ [.insertNew st.next p]) = _
          rw [hres]
          simp [List.any_cons, hm, List.append_assoc]
        · exact le_trans (by show st.next ≤ st.next + 1; omega) hle
        · rw [hjoin, hj₁, List.filter_append]
          have h1 : (joinRows st.db t).filter (keptB R rest) =
              (joinRows st.db t).filter (keptB R (p :: rest)) := by
            apply List.filter_congr
            intro x hx
            have hxo : ¬ (x.owner = p.owner) := by
              intro he
              have hxmem : x ∈ (joinRows st.db t).filter
                  (fun y => decide (y.owner = p.owner)) :=
                List.mem_filter.mpr ⟨hx, by simp [he]⟩
              rw [hfilteq, hRempty] at hxmem
              simp at hxmem
            have hxo' : ¬ (p.owner = x.owner) := fun he => hxo he.symm
            simp [keptB, List.all_cons, hxo']
          have h2 : (([mkRow st.next p]).filter (keptB R rest)) = [mkRow st.next p] := by
            have hk : keptB R rest (mkRow st.next p) = true := by
              rw [keptB, List.all_eq_true]
              intro q hq
              have hqo : q.owner ≠ p.owner := fun he =>
                hpnotin (he ▸ List.mem_map_of_mem Pos.owner hq)
              simp [mkRow, hqo]
            rw [List.filter_cons, if_pos hk]
            rfl
          rw [h1, h2]
          simp [List.append_assoc]
        · rw [List.map_cons, toPos_mkRow, hmap]
          have hfr : freshB R p = true := by simp [freshB, hm]
          rw [List.filter_cons, if_pos hfr]
        · intro f hf
          rcases List.mem_cons.mp hf with hf | hf
          · rw [hf]; exact Nat.le_refl _
          · exact le_trans (by show st.next ≤ st.next + 1; omega) (hFb f hf)
      case some =>
        rw [activePosition, hptick, hfilteq] at hap
        have hRf : R.filter (fun x => decide (x.owner = p.owner)) = [r₀] := by
          have hnd2 : ((R.filter (fun x => decide (x.owner = p.owner))).map Row.owner).Nodup :=
            List.Nodup.sublist (List.Sublist.map _ (List.filter_sublist _)) hRnd
          rcases hsplit : R.filter (fun x => decide (x.owner = p.owner)) with _ | ⟨a, l⟩
          · rw [hsplit] at hap
            cases hap
          · rw [hsplit] at hap
            simp only [List.head?_cons, Option.some.injEq] at hap
            subst hap
            rcases l with _ | ⟨b, l'⟩
            · exact hsplit
            · exfalso
              rw [hsplit] at hnd2
              have hael : a ∈ R.filter (fun x => decide (x.owner = p.owner)) := by
                rw [hsplit]; exact List.mem_cons_self _ _
              have hbel : b ∈ R.filter (fun x => decide (x.owner = p.owner)) := by
                rw [hsplit]; exact List.mem_cons_of_mem _ (List.mem_cons_self _ _)
              have hao : a.owner = p.owner := by
                have := List.of_mem_filter hael; simpa using this
              have hbo : b.owner = p.owner := by
                have := List.of_mem_filter hbel; simpa using this
              simp only [List.map_cons, List.nodup_cons] at hnd2
              exact hnd2.1 (by rw [hao, ← hbo]; exact List.mem_cons_self _ _)
        have hr₀f : r₀ ∈ R.filter (fun x => decide (x.owner = p.owner)) := by
          rw [hRf]; exact List.mem_cons_self _ _
        have hr₀R : r₀ ∈ R := List.mem_of_mem_filter hr₀f
        have hr₀o : r₀.owner = p.owner := by
          have := List.of_mem_filter hr₀f; simpa using this
        have hjoinf : (joinRows st.db t).filter (fun x => decide (x.owner = p.owner)) = [r₀] := by
          rw [hfilteq, hRf]
        have hr₀join : r₀ ∈ joinRows st.db t :=
          List.mem_of_mem_filter (show r₀ ∈ (joinRows st.db t).filter
            (fun x => decide (x.owner = p.owner)) by
              rw [hjoinf]; exact List.mem_cons_self _ _)
        have hr₀hist : r₀ ∈ st.db.historic := List.mem_of_mem_filter hr₀join
        have hr₀cond := (List.mem_filter.mp hr₀join).2
        rw [decide_eq_true_eq] at hr₀cond
        have hr₀alive : r₀.id ∈ st.db.alive := hr₀cond.2
        have hr₀ne0 : r₀.id ≠ 0 := (hwf.2.1 r₀ hr₀hist).2
        have hidsnd : ((joinRows st.db t).map Row.id).Nodup :=
          List.Nodup.sublist (List.Sublist.map _ (List.filter_sublist _))
            (wf_historic_ids_nodup st hwf)
        have hwf₁ := wf_rekey st p r₀.id hwf hr₀ne0
        have hj₁ : joinRows (insertPos st p (some r₀.id)).db t =
            (joinRows st.db t).filter (fun x => decide (x.id ≠ r₀.id)) ++
              [mkRow st.next p] := by
          rw [joinRows_rekey st p r₀.id t (wf_fresh_historic st hwf) hr₀alive, if_pos hptick]
        have hxid : ∀ x ∈ joinRows st.db t, (x.id = r₀.id ↔ x.owner = p.owner) := by
          intro x hx
          constructor
          · intro he
            have hxr : x = r₀ := List.inj_on_of_nodup_map hidsnd hx hr₀join he
            rw [hxr, hr₀o]
          · intro he
            have hxmem : x ∈ (joinRows st.db t).filter
                (fun y => decide (y.owner = p.owner)) :=
              List.mem_filter.mpr ⟨hx, by simp [he]⟩
            rw [hjoinf] at hxmem
            rw [List.mem_singleton.mp hxmem]
        have hinv₁ : ∀ q ∈ rest,
            (joinRows (insertPos st p (some r₀.id)).db t).filter
              (fun x => decide (x.owner = q.owner)) =
            R.filter (fun x => decide (x.owner = q.owner)) := by
          intro q hq
          have hqo : q.owner ≠ p.owner := fun he =>
            hpnotin (he ▸ List.mem_map_of_mem Pos.owner hq)
          rw [hj₁, List.filter_append, List.filter_filter]
          have hsing : (([mkRow st.next p]).filter
              (fun x => decide (x.owner = q.owner))) = [] := by
            simp [mkRow, Ne.symm hqo]
          rw [hsing, List.append_nil]
          have hpt : ∀ x ∈ joinRows st.db t,
              ((decide (x.owner = q.owner)) && (decide (x.id ≠ r₀.id))) =
                (decide (x.owner = q.owner)) := by
            intro x hx
            by_cases hxo : x.owner = q.owner
            · have hxne : x.id ≠ r₀.id := by
                intro he
                have : x.owner = p.owner := (hxid x hx).mp he
                rw [hxo] at this
                exact hqo this
              simp [hxo, hxne]
            · simp [hxo]
          rw [List.filter_congr hpt]
          exact hinv q (List.mem_cons_of_mem _ hq)
        obtain ⟨st', F, tr₂, hres, hwf', hle, hjoin, hmap, hFb⟩ :=
          ih hrestt hrestnd (insertPos st p (some r₀.id)) flag
            (tr ++ [.rekey r₀.id st.next p]) hwf₁ hinv₁
        refine ⟨st', mkRow st.next p :: F, .rekey r₀.id st.next p :: tr₂, ?_, hwf', ?_, ?_, ?_, ?_⟩
        · show loop1 (R.map Row.toBd) rest (insertPos st p (some r₀.id)) flag
            (tr ++ [.rekey r₀.id st.next p]) = _
          rw [hres]
          simp [List.any_cons, hm, List.append_assoc]
        · exact le_trans (by show st.next ≤ st.next + 1; omega) hle
        · rw [hjoin, hj₁, List.filter_append, List.filter_filter]
          have h2 : (([mkRow st.next p]).filter (keptB R rest)) = [mkRow st.next p] := by
            have hk : keptB R rest (mkRow st.next p) = true := by
              rw [keptB, List.all_eq_true]
              intro q hq
              have hqo : q.owner ≠ p.owner := fun he =>
                hpnotin (he ▸ List.mem_map_of_mem Pos.owner hq)
              simp [mkRow, hqo]
            rw [List.filter_cons, if_pos hk]
            rfl
          have h1 : (joinRows st.db t).filter
              (fun x => keptB R rest x && decide (x.id ≠ r₀.id)) =
              (joinRows st.db t).filter (keptB R (p :: rest)) := by
            apply List.filter_congr
            intro x hx
            have hiff := hxid x hx
            by_cases hxo : x.owner = p.owner
            · have hxe : x.id = r₀.id := hiff.mpr hxo
              simp [keptB, List.all_cons, hxo, hm, hxe]
            · have hxne : x.id ≠ r₀.id := fun he => hxo (hiff.mp he)
              have hxo' : ¬ (p.owner = x.owner) := fun he => hxo he.symm
              simp [keptB, List.all_cons, hxo', hxne]
          rw [h2, h1]
          simp [List.append_assoc]
        · rw [List.map_cons, toPos_mkRow, hmap]
          have hfr : freshB R p = true := by simp [freshB, hm]
          rw [List.filter_cons, if_pos hfr]
        · intro f hf
          rcases List.mem_cons.mp hf with hf | hf
          · rw [hf]; exact Nat.le_refl _
          · exact le_trans (by show st.next ≤ st.next + 1; omega) (hFb f hf)
    case true =>
      obtain ⟨st', F, tr₂, hres, hwf', hle, hjoin, hmap, hFb⟩ :=
        ih hrestt hrestnd st false tr hwf (fun q hq => hinv q (List.mem_cons_of_mem _ hq))
      refine ⟨st', F, tr₂, ?_, hwf', hle, ?_, ?_, hFb⟩
      · show loop1 (R.map Row.toBd) rest st false tr = _
        rw [hres]
        simp [List.any_cons, hm]
      · rw [hjoin]
        congr 1
        apply List.filter_congr
        intro x _
        simp [keptB, List.all_cons, hm]
      · rw [hmap]
        have hfr : freshB R p = false := by simp [freshB, hm]
        simp [List.filter_cons, hfr]

/-! ## Claim C1 — reconciliation completeness -/

/-- Claim C1 (counterexample): when the fresh snapshot carries two positions
with the same (owner, ticker) — the duplicate-row edge case — the pass
completes, but the final active set holds only the re-keyed second position:
its contents are not multiset-equal to the snapshot. -/
theorem c1_counterexample :
    diffPass [⟨"A", 10, 0, "T"⟩, ⟨"A", 20, 0, "T"⟩]
      (storedOf ⟨[1], [⟨1, "A", 10, 0, "T"⟩]⟩ "T") ⟨⟨[1], [⟨1, "A", 10, 0, "T"⟩]⟩, 2⟩ =
      .ok (⟨⟨[2], [⟨1, "A", 10, 0, "T"⟩, ⟨2, "A", 20, 0, "T"⟩]⟩, 3⟩, false,
        [.rekey 1 2 ⟨"A", 20, 0, "T"⟩]) ∧
    ¬ ((joinRows ⟨[2], [⟨1, "A", 10, 0, "T"⟩, ⟨2, "A", 20, 0, "T"⟩]⟩ "T").map
        Row.toPos).Perm [⟨"A", 10, 0, "T"⟩, ⟨"A", 20, 0, "T"⟩] := by
  constructor
  · decide
  · intro h
    have := h.length_eq
    simp [joinRows] at this

/-- Claim C1 (amended): for a well-formed store and snapshots whose
(owner, ticker) keys are pairwise distinct on each side — the source's own
open question excludes duplicate keys — the pass completes and the resulting
active set's structural contents are exactly the fresh snapshot, as a
multiset of (owner, weight, date, ticker) records. -/
theorem c1_reconciliation_completeness (t : String) (st : St) (P : List Pos)
    (hwf : st.wf) (hPt : ∀ p ∈ P, p.ticker = t)
    (hPnd : (P.map Pos.owner).Nodup)
    (hRnd : ((joinRows st.db t).map Row.owner).Nodup) :
    ∃ st' flag tr, diffPass P (storedOf st.db t) st = .ok (st', flag, tr) ∧
      ((joinRows st'.db t).map Row.toPos).Perm P := by
  by_cases hR : joinRows st.db t = []
  · by_cases hP : P = []
    · subst hP
      refine ⟨st, false, [], ?_, ?_⟩
      · rw [diffPass, if_pos ⟨by simp [storedOf, hR], rfl⟩]
      · simp [hR]
    · have hS : storedOf st.db t = [] := by simp [storedOf, hR]
      obtain ⟨F, hwf', hjoin, hmap⟩ := insertAll_spec t P st [] hwf hPt
      refine ⟨(insertAll P st []).1, true, (insertAll P st []).2, ?_, ?_⟩
      · rw [diffPass, if_neg (fun h => hP h.2), if_pos hS]
      · rw [hjoin, hR, List.nil_append, hmap]
  · have hS : storedOf st.db t ≠ [] := by simpa [storedOf] using hR
    by_cases hP : P = []
    · subst hP
      obtain ⟨hh, hn, hj⟩ := wipeAll_spec (joinRows st.db t) st [] (wf_historic_ne_zero st hwf)
      refine ⟨(wipeAll (storedOf st.db t) st []).1, true, (wipeAll (storedOf st.db t) st []).2,
        ?_, ?_⟩
      · rw [diffPass, if_neg (fun h => hS h.1), if_neg hS, if_pos rfl]
      · have hjoin0 : joinRows (wipeAll (storedOf st.db t) st []).1.db t = [] := by
          show joinRows (wipeAll ((joinRows st.db t).map Row.toBd) st []).1.db t = []
          rw [hj t]
          rw [List.filter_eq_nil_iff]
          intro r hr
          simp only [decide_eq_true_eq, Decidable.not_not]
          exact List.mem_map_of_mem _ hr
        rw [hjoin0]
        exact List.Perm.refl _
    · have hidsnd : ((joinRows st.db t).map Row.id).Nodup :=
        List.Nodup.sublist (List.Sublist.map _ (List.filter_sublist _))
          (wf_historic_ids_nodup st hwf)
      obtain ⟨st1, F, tr₂, hres1, hwf1, hle1, hjoin1, hmap1, hFb⟩ :=
        loop1_spec t (joinRows st.db t) hRnd P hPt hPnd st true [] hwf (fun p _ => rfl)
      obtain ⟨st2, hres2, hh2, hn2, hj2⟩ :=
        loop2_spec P (joinRows st.db t) st1
          (true && !(P.any (fun p => (joinRows st.db t).any (fun x => decide (Row.toPos x = p)))))
          ([] ++ tr₂) (wf_historic_ne_zero st1 hwf1)
      refine ⟨st2,
        (true && !(P.any (fun p =>
          (joinRows st.db t).any (fun x => decide (Row.toPos x = p))))) ||
          !(wipedRows (joinRows st.db t) P).isEmpty,
        ([] ++ tr₂) ++ (wipedRows (joinRows st.db t) P).map (fun r => Op.retire r.id),
        ?_, ?_⟩
      · rw [diffPass, if_neg (fun h => hS h.1), if_neg hS, if_neg hP]
        simp only [storedOf]
        rw [hres1, Res.bind_ok, hres2]
      · rw [hj2 t, hjoin1, List.filter_append]
        have hFkeep : F.filter
            (fun x => decide (x.id ∉ (wipedRows (joinRows st.db t) P).map Row.id)) = F := by
          have hT : ∀ f ∈ F,
              (decide (f.id ∉ (wipedRows (joinRows st.db t) P).map Row.id)) = true := by
            intro f hf
            rw [decide_eq_true_eq]
            intro hmem
            obtain ⟨r, hr, hrid⟩ := List.mem_map.mp hmem
            have hrj : r ∈ joinRows st.db t := List.mem_of_mem_filter hr
            have hrhist : r ∈ st.db.historic := List.mem_of_mem_filter hrj
            have hlt := (hwf.2.1 r hrhist).1
            have hge := hFb f hf
            omega
          rw [List.filter_congr hT, List.filter_true]
        rw [hFkeep, List.filter_filter]
        have hidm : ∀ x ∈ joinRows st.db t,
            (x.id ∈ (wipedRows (joinRows st.db t) P).map Row.id ↔
              x ∈ wipedRows (joinRows st.db t) P) := by
          intro x hx
          constructor
          · intro hmem
            obtain ⟨r, hr, hrid⟩ := List.mem_map.mp hmem
            have hrj : r ∈ joinRows st.db t := List.mem_of_mem_filter hr
            have hrx : r = x := List.inj_on_of_nodup_map hidsnd hrj hx hrid
            exact hrx ▸ hr
          · intro hmem
            exact List.mem_map_of_mem _ hmem
        have hcong : ∀ x ∈ joinRows st.db t,
            ((decide (x.id ∉ (wipedRows (joinRows st.db t) P).map Row.id)) &&
              keptB (joinRows st.db t) P x) =
            (P.any (fun p => decide (Row.toPos x = p))) := by
          intro x hx
          cases hfull : P.any (fun p => decide (Row.toPos x = p))
          · have hfull' : ∀ p ∈ P, Row.toPos x ≠ p := by simpa using hfull
            cases hkey : P.any (fun p => decide (p.owner = x.owner ∧ p.ticker = x.ticker))
            · have hxw : x ∈ wipedRows (joinRows st.db t) P :=
                List.mem_filter.mpr ⟨hx, by rw [hkey]; rfl⟩
              have hmm : (decide (x.id ∉ (wipedRows (joinRows st.db t) P).map Row.id)) =
                  false := by
                simp only [decide_eq_false_iff_not, Decidable.not_not]
                exact (hidm x hx).mpr hxw
              rw [hmm, Bool.false_and]
            · obtain ⟨p₀, hp₀, hkm⟩ := List.any_eq_true.mp hkey
              rw [decide_eq_true_eq] at hkm
              have hkept : keptB (joinRows st.db t) P x = false := by
                cases hkept : keptB (joinRows st.db t) P x
                · rfl
                · exfalso
                  have hall := List.all_eq_true.mp hkept p₀ hp₀
                  rcases Bool.or_eq_true_iff.mp hall with h | h
                  · rw [Bool.not_eq_true', decide_eq_false_iff_not] at h
                    exact h hkm.1
                  · obtain ⟨r, hr, hrp⟩ := List.any_eq_true.mp h
                    rw [decide_eq_true_eq] at hrp
                    have hro : r.owner = x.owner := by
                      rw [← hkm.1, ← hrp]
                      rfl
                    have hrx : r = x := List.inj_on_of_nodup_map hRnd hr hx hro
                    exact hfull' p₀ hp₀ (hrx ▸ hrp)
              rw [hkept, Bool.and_false]
          · obtain ⟨p₀, hp₀, hfp⟩ := List.any_eq_true.mp hfull
            rw [decide_eq_true_eq] at hfp
            have hkm : p₀.owner = x.owner ∧ p₀.ticker = x.ticker := by
              rw [← hfp]
              exact ⟨rfl, rfl⟩
            have hkey : P.any (fun p => decide (p.owner = x.owner ∧ p.ticker = x.ticker)) =
                true :=
              List.any_eq_true.mpr ⟨p₀, hp₀, by rw [decide_eq_true_eq]; exact hkm⟩
            have hnw : (decide (x.id ∉ (wipedRows (joinRows st.db t) P).map Row.id)) =
                true := by
              rw [decide_eq_true_eq]
              intro hmem
              have hxw := (hidm x hx).mp hmem
              have hcondw := List.of_mem_filter hxw
              rw [hkey] at hcondw
              cases hcondw
            have hkept : keptB (joinRows st.db t) P x = true := by
              rw [keptB, List.all_eq_true]
              intro q hq
              by_cases hqo : q.owner = x.owner
              · have hq₀ : q = p₀ := by
                  apply List.inj_on_of_nodup_map hPnd hq hp₀
                  rw [hqo, hkm.1]
                apply Bool.or_eq_true_iff.mpr
                right
                exact List.any_eq_true.mpr ⟨x, hx, by rw [decide_eq_true_eq, hq₀]; exact hfp⟩
              · apply Bool.or_eq_true_iff.mpr
                left
                simp [hqo]
            rw [hnw, hkept]
            rfl
        rw [List.filter_congr hcong, List.map_append, hmap1]
        have hnodupP : P.Nodup := List.Nodup.of_map _ hPnd
        have hjoinnd : (joinRows st.db t).Nodup := List.Nodup.of_map _ hRnd
        have hperm1 : (((joinRows st.db t).filter
            (fun x => P.any (fun p => decide (Row.toPos x = p)))).map Row.toPos).Perm
            (P.filter (fun q => !(freshB (joinRows st.db t) q))) := by
          refine (List.perm_ext_iff_of_nodup ?_ ?_).mpr ?_
          · apply List.Nodup.map_on
            · intro x hxf y hyf hxy
              have hxj := List.mem_of_mem_filter hxf
              have hyj := List.mem_of_mem_filter hyf
              exact List.inj_on_of_nodup_map hRnd hxj hyj (congrArg Pos.owner hxy)
            · exact List.Nodup.filter _ hjoinnd
          · exact List.Nodup.filter _ hnodupP
          · intro q
            constructor
            · intro hq
              obtain ⟨x, hxf, hxq⟩ := List.mem_map.mp hq
              have hxj : x ∈ joinRows st.db t := List.mem_of_mem_filter hxf
              apply List.mem_filter.mpr
              constructor
              · have hfb := List.of_mem_filter hxf
                obtain ⟨p₀, hp₀, hfp⟩ := List.any_eq_true.mp hfb
                rw [decide_eq_true_eq] at hfp
                rw [← hxq, hfp]
                exact hp₀
              · simp only [freshB, Bool.not_not]
                exact List.any_eq_true.mpr ⟨x, hxj, by rw [decide_eq_true_eq]; exact hxq⟩
            · intro hq
              have hqP := List.mem_of_mem_filter hq
              have hqb := List.of_mem_filter hq
              simp only [freshB, Bool.not_not] at hqb
              obtain ⟨x, hxj, hxq⟩ := List.any_eq_true.mp hqb
              rw [decide_eq_true_eq] at hxq
              apply List.mem_map.mpr
              refine ⟨x, List.mem_filter.mpr ⟨hxj, ?_⟩, hxq⟩
              exact List.any_eq_true.mpr ⟨q, hqP, by rw [decide_eq_true_eq]; exact hxq⟩
        refine List.Perm.trans (List.Perm.append hperm1 (List.Perm.refl _)) ?_
        have hff : P.filter (freshB (joinRows st.db t)) =
            P.filter (fun q => !(!(freshB (joinRows st.db t) q))) := by
          apply List.filter_congr
          intro q _
          rw [Bool.not_not]
        rw [hff]
        exact List.filter_append_perm _ P

/-- Witness for the amended C1 at a concrete store. -/
theorem c1_reconciliation_completeness_witness :
    (⟨⟨[1], [⟨1, "A", 10, 0, "T"⟩]⟩, 2⟩ : St).wf ∧
    (∀ p ∈ ([⟨"A", 20, 0, "T"⟩, ⟨"B", 5, 0, "T"⟩] : List Pos), p.ticker = "T") ∧
    (([⟨"A", 20, 0, "T"⟩, ⟨"B", 5, 0, "T"⟩] : List Pos).map Pos.owner).Nodup ∧
    ((joinRows ⟨[1], [⟨1, "A", 10, 0, "T"⟩]⟩ "T").map Row.owner).Nodup ∧
    ∃ st' flag tr,
      diffPass [⟨"A", 20, 0, "T"⟩, ⟨"B", 5, 0, "T"⟩]
          (storedOf ⟨[1], [⟨1, "A", 10, 0, "T"⟩]⟩ "T") ⟨⟨[1], [⟨1, "A", 10, 0, "T"⟩]⟩, 2⟩ =
        .ok (st', flag, tr) ∧
      ((joinRows st'.db "T").map Row.toPos).Perm [⟨"A", 20, 0, "T"⟩, ⟨"B", 5, 0, "T"⟩] :=
  ⟨by unfold St.wf; decide, by decide, by decide, by decide,
    c1_reconciliation_completeness "T" ⟨⟨[1], [⟨1, "A", 10, 0, "T"⟩]⟩, 2⟩
      [⟨"A", 20, 0, "T"⟩, ⟨"B", 5, 0, "T"⟩]
      (by unfold St.wf; decide) (by decide) (by decide) (by decide)⟩
